import Mathlib

/-!
# go-ip: a shallow embedding of the address library and its range enumerator

The development embeds the Go package `ip` (files `ip.go`, `ipv4.go`, `ipv6.go`)
together with the parts of Go's standard `net` package the code calls
(`IP.To4`, `IP.To16`, `IP.Mask`, `IP.Equal`, `IPNet.Contains`, `IPv4`, `IPv4Mask`,
`CIDRMask`).

* A byte is a `Fin 256`; `++` on a byte is written with an explicit `% 256`.
* A `net.IP` / `net.IPMask` is a list of bytes; Go's `nil` result of a function
  returning a slice is `none`.
* The two `for` loops of `GetList4` / `GetList6` are embedded as follows: the
  scan for the last address takes a fuel argument (one unit per evaluation of
  the loop condition) and answers `none` when the fuel runs out; the goroutine
  feeding the `usable` channel is a state (`Chan`) with a receive step.
-/

namespace GoIP

/-! ## Bytes and slices -/

/-- One byte. -/
abbrev Byte := Fin 256

/-- Go's `net.IP`: a slice of bytes. -/
abbrev IP := List Byte

/-- Go's `net.IPMask`: a slice of bytes. -/
abbrev IPMask := List Byte

/-- Go's `net.IPNet`. -/
structure IPNet where
  IP : GoIP.IP
  Mask : GoIP.IPMask
deriving DecidableEq, Repr

/-- Go's `net.IPv4len`. -/
def IPv4len : Nat := 4

/-- Go's `net.IPv6len`. -/
def IPv6len : Nat := 16

/-- The byte `b + 1` of Go's `ip[j]++` (wrapping at 256). -/
def Byte.inc (b : Byte) : Byte := ⟨(b.val + 1) % 256, Nat.mod_lt _ (by decide)⟩

/-- The byte `a & b`. -/
def Byte.and (a b : Byte) : Byte := ⟨a.val &&& b.val, lt_of_le_of_lt Nat.and_le_left a.isLt⟩

/-- The byte `a | b`. -/
def Byte.or (a b : Byte) : Byte := ⟨(a.val ||| b.val) % 256, Nat.mod_lt _ (by decide)⟩

/-- The byte `^b` (bitwise complement of a byte). -/
def Byte.not (b : Byte) : Byte := ⟨255 - b.val, by omega⟩

/-- Go's `make([]byte, n)`: `n` zero bytes. -/
def make (n : Nat) : List Byte := List.replicate n 0

/-- Go's builtin `copy(dst, src)`: the first `min (len dst) (len src)` bytes of
`dst` are overwritten with those of `src`; the result is the new `dst`. -/
def copy (dst src : List Byte) : List Byte :=
  src.take dst.length ++ dst.drop src.length

/-- The big-endian unsigned value of a byte sequence. -/
def bigEndian : List Byte → Nat
  | [] => 0
  | b :: rest => b.val * 256 ^ rest.length + bigEndian rest

/-! ## `Increase` (ip.go) -/

/-- The loop of `Increase`: `IncreaseLoop (j+1) ip` runs the body at index `j`
(`ip[j]++; if ip[j] > 0 { break }`) and continues with `j-1`; `IncreaseLoop 0 ip`
is the exit at `j < 0`. -/
def IncreaseLoop : Nat → IP → IP
  | 0, ip => ip
  | j + 1, ip =>
    let ip1 := ip.set j (Byte.inc (ip.getD j 0))
    if 0 < (ip1.getD j 0).val then ip1 else IncreaseLoop j ip1

/-- `Increase(ip)`: the address after `ip` (the slice is updated in place in Go;
here the updated slice is returned). -/
def Increase (ip : IP) : IP := IncreaseLoop ip.length ip

/-! ## The parts of Go's `net` package used by the code -/

/-- Go's `net.v4InV6Prefix`: the first twelve bytes of an IPv4-mapped address. -/
def v4InV6 : List Byte := [0, 0, 0, 0, 0, 0, 0, 0, 0, 0, 0xff, 0xff]

/-- Go's `net.IPv4(a, b, c, d)`: the 16-byte (IPv4-mapped) form of `a.b.c.d`. -/
def IPv4 (a b c d : Byte) : IP :=
  let p := copy (make IPv6len) v4InV6
  (((p.set 12 a).set 13 b).set 14 c).set 15 d

/-- Go's `net.IPv4Mask(a, b, c, d)`: a 4-byte mask. -/
def IPv4Mask (a b c d : Byte) : IPMask := [a, b, c, d]

/-- Go's `net.isZeros`. -/
def isZeros (p : List Byte) : Bool := p.all (fun b => b == 0)

/-- Go's `net.allFF`. -/
def allFF (p : List Byte) : Bool := p.all (fun b => b == 0xff)

/-- Go's `IP.To4`: the 4-byte form of an IPv4 address, `none` (Go's `nil`) when
`ip` is not an IPv4 address. -/
def To4 (ip : IP) : Option IP :=
  if ip.length = IPv4len then some ip
  else if ip.length = IPv6len ∧ isZeros (ip.take 10) = true ∧ ip.getD 10 0 = 0xff
      ∧ ip.getD 11 0 = 0xff then some ((ip.take 16).drop 12)
  else none

/-- Go's `IP.To16`: the 16-byte form of an address, `none` (Go's `nil`) when the
length is neither 4 nor 16. -/
def To16 (ip : IP) : Option IP :=
  if ip.length = IPv4len then some (IPv4 (ip.getD 0 0) (ip.getD 1 0) (ip.getD 2 0) (ip.getD 3 0))
  else if ip.length = IPv6len then some ip
  else none

/-- Go's `IP.Mask`: the bytewise AND of `ip` and `mask`, `none` (Go's `nil`) when
the lengths do not fit. -/
def IPMaskApply (ip : IP) (mask : IPMask) : Option IP :=
  let mask1 := if mask.length = IPv6len ∧ ip.length = IPv4len ∧ allFF (mask.take 12) = true
    then mask.drop 12 else mask
  let ip1 := if mask1.length = IPv4len ∧ ip.length = IPv6len ∧ ip.take 12 = v4InV6
    then ip.drop 12 else ip
  if ip1.length ≠ mask1.length then none
  else some (List.zipWith Byte.and ip1 mask1)

/-- Go's `IP.Equal`. -/
def IPEqual (ip x : IP) : Bool :=
  if ip.length = x.length then decide (ip = x)
  else if ip.length = IPv4len ∧ x.length = IPv6len then
    decide (x.take 12 = v4InV6) && decide (ip = x.drop 12)
  else if ip.length = IPv6len ∧ x.length = IPv4len then
    decide (ip.take 12 = v4InV6) && decide (ip.drop 12 = x)
  else false

/-- Go's `net.networkNumberAndMask`; the result `(nil, nil)` is `([], [])`. -/
def networkNumberAndMask (n : IPNet) : IP × IPMask :=
  match To4 n.IP with
  | some ip =>
    if n.Mask.length = IPv4len then (ip, n.Mask)
    else if n.Mask.length = IPv6len then (ip, n.Mask.drop 12)
    else ([], [])
  | none =>
    if n.IP.length ≠ IPv6len then ([], [])
    else if n.Mask.length = IPv4len then ([], [])
    else if n.Mask.length = IPv6len then (n.IP, n.Mask)
    else ([], [])

/-- The comparison loop of `IPNet.Contains`, run over the network number, the
mask and the address in step: `false` at the first index with
`nn[i]&m[i] != ip[i]&m[i]`, `true` when the address is exhausted.  The loop is
entered with `len(ip) = len(nn)`, and `networkNumberAndMask` returns a mask as
long as the network number. -/
def containsLoop : IP → IPMask → IP → Bool
  | n :: nn, m :: ms, x :: xs =>
    if Byte.and n m ≠ Byte.and x m then false else containsLoop nn ms xs
  | _, _, _ => true

/-- Go's `IPNet.Contains`. -/
def Contains (n : IPNet) (ip : IP) : Bool :=
  let nm := networkNumberAndMask n
  let ip1 := match To4 ip with
    | some x => x
    | none => ip
  if ip1.length ≠ nm.1.length then false else containsLoop nm.1 nm.2 ip1

/-- The loop of Go's `net.CIDRMask`: `l` bytes are still to be written and `n`
one-bits are still to be placed. -/
def CIDRMaskLoop : Nat → Nat → List Byte
  | 0, _ => []
  | l + 1, n =>
    if 8 ≤ n then 0xff :: CIDRMaskLoop l (n - 8)
    else Byte.not ⟨(255 >>> n) % 256, Nat.mod_lt _ (by decide)⟩ :: CIDRMaskLoop l 0

/-- Go's `net.CIDRMask(ones, bits)`: the mask of `bits` bits whose first `ones`
bits are set, `none` (Go's `nil`) for a size other than 32 or 128 or when
`ones > bits`. -/
def CIDRMask (ones bits : Nat) : Option IPMask :=
  if bits ≠ 8 * IPv4len ∧ bits ≠ 8 * IPv6len then none
  else if bits < ones then none
  else some (CIDRMaskLoop (bits / 8) ones)

/-- Go's `net.IPAddr`. -/
structure IPAddr where
  IP : GoIP.IP
  Zone : String
deriving DecidableEq

/-- Go's `net.TCPAddr`. -/
structure TCPAddr where
  IP : GoIP.IP
  Port : Int
  Zone : String
deriving DecidableEq

/-- Go's `net.UDPAddr`. -/
structure UDPAddr where
  IP : GoIP.IP
  Port : Int
  Zone : String
deriving DecidableEq

/-! ## The input types (ip.go) -/

/-- The type set `IPTypes`: one constructor per member type.  A pointer is
represented by the value it points to (a non-nil pointer). -/
inductive IPTypes where
  | ip (v : IP)
  | ipPtr (v : IP)
  | ipNet (v : IPNet)
  | ipNetPtr (v : IPNet)
  | ipAddr (v : IPAddr)
  | ipAddrPtr (v : IPAddr)
  | tcpAddr (v : TCPAddr)
  | tcpAddrPtr (v : TCPAddr)
  | udpAddr (v : UDPAddr)
  | udpAddrPtr (v : UDPAddr)
  | str (s : String)
  | strPtr (s : String)
deriving DecidableEq

/-- A `net.IP` held by an input value, as a result: Go's `nil` slice, which the
list of length 0 stands for, is `none`. -/
def ipOrNil (v : IP) : Option IP := if v = [] then none else some v

/-- `ConvertToIP`; `ParseIP` is Go's `net.ParseIP`, taken as a parameter.  The
result `none` is Go's `nil`. -/
def ConvertToIP (ParseIP : String → Option IP) : IPTypes → Option IP
  | .ip v => ipOrNil v
  | .ipPtr v => ipOrNil v
  | .ipNet v => ipOrNil v.IP
  | .ipNetPtr v => ipOrNil v.IP
  | .ipAddr v => ipOrNil v.IP
  | .ipAddrPtr v => ipOrNil v.IP
  | .tcpAddr v => ipOrNil v.IP
  | .tcpAddrPtr v => ipOrNil v.IP
  | .udpAddr v => ipOrNil v.IP
  | .udpAddrPtr v => ipOrNil v.IP
  | .str s => ParseIP s
  | .strPtr s => ParseIP s

/-! ## IPv4 (ipv4.go) -/

/-- The table `ReservedIPv4`. -/
def ReservedIPv4 : List IPNet := [
  ⟨IPv4 0 0 0 0, IPv4Mask 255 0 0 0⟩,
  ⟨IPv4 10 0 0 0, IPv4Mask 255 0 0 0⟩,
  ⟨IPv4 100 64 0 0, IPv4Mask 255 192 0 0⟩,
  ⟨IPv4 127 0 0 0, IPv4Mask 255 0 0 0⟩,
  ⟨IPv4 169 254 0 0, IPv4Mask 255 255 0 0⟩,
  ⟨IPv4 172 16 0 0, IPv4Mask 255 240 0 0⟩,
  ⟨IPv4 192 0 0 0, IPv4Mask 255 255 255 0⟩,
  ⟨IPv4 192 0 2 0, IPv4Mask 255 255 255 0⟩,
  ⟨IPv4 192 88 99 0, IPv4Mask 255 255 255 0⟩,
  ⟨IPv4 192 168 0 0, IPv4Mask 255 255 0 0⟩,
  ⟨IPv4 198 18 0 0, IPv4Mask 255 254 0 0⟩,
  ⟨IPv4 198 51 100 0, IPv4Mask 255 255 255 0⟩,
  ⟨IPv4 203 0 113 0, IPv4Mask 255 255 255 0⟩,
  ⟨IPv4 224 0 0 0, IPv4Mask 240 0 0 0⟩,
  ⟨IPv4 233 252 0 0, IPv4Mask 255 255 255 0⟩,
  ⟨IPv4 240 0 0 0, IPv4Mask 240 0 0 0⟩,
  ⟨IPv4 255 255 255 255, IPv4Mask 255 255 255 255⟩]

/-- The `/32` network mask. -/
def Mask32 : IPMask := [0xff, 0xff, 0xff, 0xff]

/-- The `/31` network mask. -/
def Mask31 : IPMask := [0xff, 0xff, 0xff, 0xfe]

/-- `IsReserved4`: whether some entry of `ReservedIPv4` contains `ip`. -/
def IsReserved4 (ip : IP) : Bool := ReservedIPv4.any (fun n => Contains n ip)

/-- `IsValid4` at the type `net.IP` (`t.To4() != nil`). -/
def IsValid4IP (t : IP) : Bool := (To4 t).isSome

/-- `IsValid4`; `ParseIP` is Go's `net.ParseIP`, taken as a parameter.  The
cases `netip.Addr` and `*netip.Addr` of the type switch are outside the type
set `IPTypes`; every member type not listed in the switch takes the `default`
branch. -/
def IsValid4 (ParseIP : String → Option IP) : IPTypes → Bool
  | .ip t => IsValid4IP t
  | .ipPtr t => IsValid4IP t
  | .str t =>
    match ParseIP t with
    | none => false
    | some i => (To4 i).isSome
  | .strPtr t =>
    match ParseIP t with
    | none => false
    | some i => (To4 i).isSome
  | _ => false

/-- The errors built with `fmt.Errorf` in `GetList`, `GetList4` and `GetList6`,
one constructor per message. -/
inductive Error where
  | invalidIPv4Address (ip : IP)
  | invalidIPv4Mask (mask : IPMask)
  | invalidIPv6Address (ip : IP)
  | invalidIPv6Mask (mask : IPMask)
  | invalidIPAddress (ip : IP)
deriving DecidableEq

/-- The goroutine behind the channel `usable`: its variable `ip` (the address
sent last, at the start the first address) and the address `last` at which it
stops. -/
structure Chan where
  ip : IP
  last : IP
deriving DecidableEq

/-- One receive on `usable`: the goroutine runs `Increase(ip)` and tests
`!ip.Equal(last)`; it either sends a fresh copy of `ip` (the result carries the
value received and the state of the goroutine afterwards) or closes the channel
(`none`). -/
def Chan.recv (c : Chan) : Option (IP × Chan) :=
  let ip := Increase c.ip
  if IPEqual ip c.last = true then none
  else some (copy (make ip.length) ip, { ip := ip, last := c.last })

/-- The consumer's `for ip := range usable` with the addresses received so far
in `acc` (latest first): the addresses received until the channel is closed,
`none` when the channel is not closed within `fuel` receive attempts. -/
def Chan.drainAux : Nat → Chan → List IP → Option (List IP)
  | 0, _, _ => none
  | fuel + 1, c, acc =>
    match c.recv with
    | none => some acc.reverse
    | some (v, c1) => Chan.drainAux fuel c1 (v :: acc)

/-- The consumer's `for ip := range usable`: every address received, in order. -/
def Chan.drain (fuel : Nat) (c : Chan) : Option (List IP) := Chan.drainAux fuel c []

/-- The four values returned by `GetList`, `GetList4` and `GetList6`; `none` is
Go's `nil`. -/
structure GetListResult where
  first : Option IP
  last : Option IP
  usable : Option Chan
  err : Option Error
deriving DecidableEq

/-- The loop `for Increase(ip); n.Contains(ip); Increase(ip) { copy(last, ip) }`
entered after its init statement: `ip` is the working address and `last` the
address recorded so far.  Each evaluation of the condition takes one unit of
fuel; the result is the pair of `ip` and `last` at the exit of the loop, `none`
when the fuel runs out. -/
def scanLast (n : IPNet) : Nat → IP → IP → Option (IP × IP)
  | 0, _, _ => none
  | fuel + 1, ip, last =>
    if Contains n ip = true then scanLast n fuel (Increase ip) (copy last ip)
    else some (ip, last)

/-- `GetList4`; `none` when the scan for the last address does not end within
`fuel` evaluations of its condition. -/
def GetList4 (fuel : Nat) (n : IPNet) : Option GetListResult :=
  if IsValid4IP n.IP = false then
    some ⟨none, none, none, some (.invalidIPv4Address n.IP)⟩
  else if n.Mask.length ≠ IPv4len then
    some ⟨none, none, none, some (.invalidIPv4Mask n.Mask)⟩
  else
    let first := copy (make IPv4len) ((IPMaskApply n.IP n.Mask).getD [])
    if n.Mask = Mask32 then some ⟨some first, none, none, none⟩
    else
      let last := copy (make IPv4len) first
      let ip := copy (make IPv4len) first
      match scanLast n fuel (Increase ip) last with
      | none => none
      | some (ip1, last1) =>
        if n.Mask = Mask31 then some ⟨some first, some last1, none, none⟩
        else some ⟨some first, some last1, some { ip := copy ip1 first, last := last1 }, none⟩

/-! ## IPv6 (ipv6.go) -/

/-- The table `ReservedIPv6`. -/
def ReservedIPv6 : List IPNet := [
  ⟨[0, 0, 0, 0, 0, 0, 0, 0, 0, 0, 0, 0, 0, 0, 0, 0],
    [255, 255, 255, 255, 255, 255, 255, 255, 255, 255, 255, 255, 255, 255, 255, 255]⟩,
  ⟨[0, 0, 0, 0, 0, 0, 0, 0, 0, 0, 0, 0, 0, 0, 0, 1],
    [255, 255, 255, 255, 255, 255, 255, 255, 255, 255, 255, 255, 255, 255, 255, 255]⟩,
  ⟨[0, 0, 0, 0, 0, 0, 0, 0, 0, 0, 255, 255, 0, 0, 0, 0],
    [255, 255, 255, 255, 255, 255, 255, 255, 255, 255, 255, 255, 0, 0, 0, 0]⟩,
  ⟨[0, 0, 0, 0, 0, 0, 0, 0, 255, 255, 0, 0, 0, 0, 0, 0],
    [255, 255, 255, 255, 255, 255, 255, 255, 255, 255, 255, 255, 0, 0, 0, 0]⟩,
  ⟨[0, 100, 255, 155, 0, 0, 0, 0, 0, 0, 0, 0, 0, 0, 0, 0],
    [255, 255, 255, 255, 255, 255, 255, 255, 255, 255, 255, 255, 0, 0, 0, 0]⟩,
  ⟨[0, 100, 255, 155, 0, 1, 0, 0, 0, 0, 0, 0, 0, 0, 0, 0],
    [255, 255, 255, 255, 255, 255, 0, 0, 0, 0, 0, 0, 0, 0, 0, 0]⟩,
  ⟨[1, 0, 0, 0, 0, 0, 0, 0, 0, 0, 0, 0, 0, 0, 0, 0],
    [255, 255, 255, 255, 255, 255, 255, 255, 0, 0, 0, 0, 0, 0, 0, 0]⟩,
  ⟨[32, 1, 0, 0, 0, 0, 0, 0, 0, 0, 0, 0, 0, 0, 0, 0],
    [255, 255, 255, 255, 0, 0, 0, 0, 0, 0, 0, 0, 0, 0, 0, 0]⟩,
  ⟨[32, 1, 0, 32, 0, 0, 0, 0, 0, 0, 0, 0, 0, 0, 0, 0],
    [255, 255, 255, 240, 0, 0, 0, 0, 0, 0, 0, 0, 0, 0, 0, 0]⟩,
  ⟨[32, 1, 13, 184, 0, 0, 0, 0, 0, 0, 0, 0, 0, 0, 0, 0],
    [255, 255, 255, 255, 0, 0, 0, 0, 0, 0, 0, 0, 0, 0, 0, 0]⟩,
  ⟨[32, 2, 0, 0, 0, 0, 0, 0, 0, 0, 0, 0, 0, 0, 0, 0],
    [255, 255, 0, 0, 0, 0, 0, 0, 0, 0, 0, 0, 0, 0, 0, 0]⟩,
  ⟨[252, 0, 0, 0, 0, 0, 0, 0, 0, 0, 0, 0, 0, 0, 0, 0],
    [254, 0, 0, 0, 0, 0, 0, 0, 0, 0, 0, 0, 0, 0, 0, 0]⟩,
  ⟨[254, 128, 0, 0, 0, 0, 0, 0, 0, 0, 0, 0, 0, 0, 0, 0],
    [255, 192, 0, 0, 0, 0, 0, 0, 0, 0, 0, 0, 0, 0, 0, 0]⟩,
  ⟨[255, 0, 0, 0, 0, 0, 0, 0, 0, 0, 0, 0, 0, 0, 0, 0],
    [255, 0, 0, 0, 0, 0, 0, 0, 0, 0, 0, 0, 0, 0, 0, 0]⟩]

/-- The `/128` network mask. -/
def Mask128 : IPMask :=
  [0xff, 0xff, 0xff, 0xff, 0xff, 0xff, 0xff, 0xff]
    ++ [0xff, 0xff, 0xff, 0xff, 0xff, 0xff, 0xff, 0xff]

/-- The `/127` network mask. -/
def Mask127 : IPMask :=
  [0xff, 0xff, 0xff, 0xff, 0xff, 0xff, 0xff, 0xff]
    ++ [0xff, 0xff, 0xff, 0xff, 0xff, 0xff, 0xff, 0xfe]

/-- `IsReserved6`: whether some entry of `ReservedIPv6` contains `ip`. -/
def IsReserved6 (ip : IP) : Bool := ReservedIPv6.any (fun n => Contains n ip)

/-- `IsValid6` at the type `net.IP` (`t.To16() != nil`). -/
def IsValid6IP (t : IP) : Bool := (To16 t).isSome

/-- `IsValid6`; `ParseIP` is Go's `net.ParseIP`, taken as a parameter.  The
cases `netip.Addr` and `*netip.Addr` of the type switch are outside the type
set `IPTypes`; every member type not listed in the switch takes the `default`
branch. -/
def IsValid6 (ParseIP : String → Option IP) : IPTypes → Bool
  | .ip t => IsValid6IP t
  | .ipPtr t => IsValid6IP t
  | .str t =>
    match ParseIP t with
    | none => false
    | some i => (To16 i).isSome
  | .strPtr t =>
    match ParseIP t with
    | none => false
    | some i => (To16 i).isSome
  | _ => false

/-- `GetList6`; `none` when the scan for the last address does not end within
`fuel` evaluations of its condition. -/
def GetList6 (fuel : Nat) (n : IPNet) : Option GetListResult :=
  if IsValid6IP n.IP = false then
    some ⟨none, none, none, some (.invalidIPv6Address n.IP)⟩
  else if n.Mask.length ≠ IPv6len then
    some ⟨none, none, none, some (.invalidIPv6Mask n.Mask)⟩
  else
    let first := copy (make IPv6len) ((IPMaskApply n.IP n.Mask).getD [])
    if n.Mask = Mask128 then some ⟨some first, none, none, none⟩
    else
      let last := copy (make IPv6len) first
      let ip := copy (make IPv6len) first
      match scanLast n fuel (Increase ip) last with
      | none => none
      | some (ip1, last1) =>
        if n.Mask = Mask127 then some ⟨some first, some last1, none, none⟩
        else some ⟨some first, some last1, some { ip := copy ip1 first, last := last1 }, none⟩

/-! ## The dispatching functions (ip.go) -/

/-- `IsValid`. -/
def IsValid (ParseIP : String → Option IP) (ip : IPTypes) : Bool :=
  IsValid4 ParseIP ip || IsValid6 ParseIP ip

/-- `IsReserved`. -/
def IsReserved (ip : IP) : Bool := IsReserved4 ip || IsReserved6 ip

/-- `GetList`; the fuel is handed to `GetList4` or `GetList6`. -/
def GetList (fuel : Nat) (n : IPNet) : Option GetListResult :=
  if IsValid4IP n.IP = true then GetList4 fuel n
  else if IsValid6IP n.IP = true then GetList6 fuel n
  else some ⟨none, none, none, some (.invalidIPAddress n.IP)⟩

/-! ## Bytewise operations used to state the results -/

/-- The bytewise AND of two byte sequences. -/
def andBytes (a b : List Byte) : List Byte := List.zipWith Byte.and a b

/-- The bytewise `a OR (NOT m)`. -/
def orNotBytes (a m : List Byte) : List Byte :=
  List.zipWith (fun x y => Byte.or x (Byte.not y)) a m

/-! ## Random addresses (ip.go, ipv4.go, ipv6.go) -/

/-- Go's `rand.Read(bytes)` on a slice of `k` bytes: the random source is a
stream of bytes `rnd`, read from position `pos` on. -/
def randRead (rnd : Nat → Byte) (pos k : Nat) : List Byte :=
  (List.range k).map (fun i => rnd (pos + i))

/-- `GetRandom4` with the random source at position `pos`. -/
def GetRandom4 (rnd : Nat → Byte) (pos : Nat) : IP :=
  let bytes := randRead rnd pos 4
  IPv4 (bytes.getD 0 0) (bytes.getD 1 0) (bytes.getD 2 0) (bytes.getD 3 0)

/-- `GetPublic4`: one unit of fuel per round of the `for` loop, `none` when the
fuel runs out before a round returns. -/
def GetPublic4 : Nat → (Nat → Byte) → Nat → Option IP
  | 0, _, _ => none
  | fuel + 1, rnd, pos =>
    let ip := GetRandom4 rnd pos
    if IsReserved4 ip = false then some ip else GetPublic4 fuel rnd (pos + 4)

/-- `GetRandom6` with the random source at position `pos`. -/
def GetRandom6 (rnd : Nat → Byte) (pos : Nat) : IP :=
  randRead rnd pos 16

/-- `GetPublic6`: one unit of fuel per round of the `for` loop, `none` when the
fuel runs out before a round returns. -/
def GetPublic6 : Nat → (Nat → Byte) → Nat → Option IP
  | 0, _, _ => none
  | fuel + 1, rnd, pos =>
    let ip := GetRandom6 rnd pos
    if IsReserved6 ip = false then some ip else GetPublic6 fuel rnd (pos + 16)

/-- `GetRandom`; `coin` is the value of `rand.Intn(2)`. -/
def GetRandom (coin : Nat) (rnd : Nat → Byte) (pos : Nat) : IP :=
  if coin = 0 then GetRandom4 rnd pos else GetRandom6 rnd pos

/-- `GetPublic`; `coin` is the value of `rand.Intn(2)`. -/
def GetPublic (coin fuel : Nat) (rnd : Nat → Byte) (pos : Nat) : Option IP :=
  if coin = 0 then GetPublic4 fuel rnd pos else GetPublic6 fuel rnd pos

/-! ## The blocks named in the comments of the reserved tables -/

/-- The comments on the lines of `ReservedIPv4`, in order: the four octets of
the network address and the prefix length. -/
def ReservedIPv4Doc : List ((Byte × Byte × Byte × Byte) × Nat) := [
  ((0, 0, 0, 0), 8),
  ((10, 0, 0, 0), 8),
  ((100, 64, 0, 0), 10),
  ((127, 0, 0, 0), 8),
  ((169, 254, 0, 0), 16),
  ((172, 16, 0, 0), 12),
  ((192, 0, 0, 0), 24),
  ((192, 0, 2, 0), 24),
  ((192, 88, 99, 0), 24),
  ((192, 168, 0, 0), 24),
  ((198, 18, 0, 0), 15),
  ((198, 51, 100, 0), 24),
  ((203, 0, 113, 0), 24),
  ((224, 0, 0, 0), 4),
  ((233, 252, 0, 0), 24),
  ((240, 0, 0, 0), 4),
  ((255, 255, 255, 255), 32)]

/-- The comments on the lines of `ReservedIPv6`, in order: the eight 16-bit
groups of the network address and the prefix length. -/
def ReservedIPv6Doc : List (List Nat × Nat) := [
  ([0, 0, 0, 0, 0, 0, 0, 0], 128),
  ([0, 0, 0, 0, 0, 0, 0, 1], 128),
  ([0, 0, 0, 0, 0, 0xffff, 0, 0], 96),
  ([0, 0, 0, 0, 0xffff, 0, 0, 0], 96),
  ([0x64, 0xff9b, 0, 0, 0, 0, 0, 0], 96),
  ([0x64, 0xff9b, 1, 0, 0, 0, 0, 0], 48),
  ([0x100, 0, 0, 0, 0, 0, 0, 0], 64),
  ([0x2001, 0, 0, 0, 0, 0, 0, 0], 32),
  ([0x2001, 0x20, 0, 0, 0, 0, 0, 0], 28),
  ([0x2001, 0xdb8, 0, 0, 0, 0, 0, 0], 32),
  ([0x2002, 0, 0, 0, 0, 0, 0, 0], 16),
  ([0xfc00, 0, 0, 0, 0, 0, 0, 0], 7),
  ([0xfe80, 0, 0, 0, 0, 0, 0, 0], 10),
  ([0xff00, 0, 0, 0, 0, 0, 0, 0], 8)]

/-- The sixteen bytes of an IPv6 address written as eight 16-bit groups. -/
def groupBytes (groups : List Nat) : IP :=
  groups.flatMap (fun g => [Fin.ofNat (g / 256), Fin.ofNat (g % 256)])

/-- An entry of a reserved table is the block `addr/p` of `bits` bits: its
address is `addr` and its mask is the prefix mask of length `p`. -/
def denotes (entry : IPNet) (addr : IP) (p bits : Nat) : Bool :=
  decide (entry.IP = addr) && decide (CIDRMask p bits = some entry.Mask)

/-- For each line of `ReservedIPv4`, whether the entry is the block named in the
comment of the line (the address in the 16-byte form of `net.IPv4`). -/
def ReservedIPv4Rows : List Bool :=
  (List.zip ReservedIPv4 ReservedIPv4Doc).map
    (fun e => denotes e.1 (IPv4 e.2.1.1 e.2.1.2.1 e.2.1.2.2.1 e.2.1.2.2.2) e.2.2 32)

/-- For each line of `ReservedIPv6`, whether the entry is the block named in the
comment of the line. -/
def ReservedIPv6Rows : List Bool :=
  (List.zip ReservedIPv6 ReservedIPv6Doc).map (fun e => denotes e.1 (groupBytes e.2.1) e.2.2 128)

/-! ## Trailing zero bits of a mask -/

/-- The number of trailing zero bits of `m` among its lowest `w` bits (`w` when
these are all zero). -/
def trailingZerosAux : Nat → Nat → Nat
  | 0, _ => 0
  | w + 1, m => if m % 2 = 1 then 0 else trailingZerosAux w (m / 2) + 1

/-- The number of trailing zero bits of a 32-bit value. -/
def trailingZeros (m : Nat) : Nat := trailingZerosAux 32 m

/-! ## Arithmetic of byte sequences -/

theorem bigEndian_lt (l : List Byte) : bigEndian l < 256 ^ l.length := by
  induction l with
  | nil => simp [bigEndian]
  | cons b rest ih =>
    have hb := b.isLt
    simp only [bigEndian, List.length_cons, pow_succ]
    have hp : 0 < 256 ^ rest.length := Nat.pos_of_ne_zero (by positivity)
    nlinarith

theorem bigEndian_set (l : List Byte) (j : Nat) (c : Byte) (hj : j < l.length) :
    bigEndian (l.set j c) + (l.getD j 0).val * 256 ^ (l.length - 1 - j)
      = bigEndian l + c.val * 256 ^ (l.length - 1 - j) := by
  induction l generalizing j with
  | nil => simp at hj
  | cons b rest ih =>
    cases j with
    | zero =>
      simp only [List.set_cons_zero, bigEndian, List.getD_cons_zero, List.length_cons,
        Nat.add_sub_cancel, Nat.sub_zero]
      omega
    | succ j =>
      have hj1 : j < rest.length := by simpa using hj
      have := ih j hj1
      simp only [List.set_cons_succ, bigEndian, List.getD_cons_succ, List.length_cons,
        List.length_set, Nat.add_sub_cancel]
      have e : rest.length - (j + 1) = rest.length - 1 - j := by omega
      rw [e]
      omega

theorem IncreaseLoop_length (j : Nat) (ip : IP) : (IncreaseLoop j ip).length = ip.length := by
  induction j generalizing ip with
  | zero => rfl
  | succ j ih =>
    simp only [IncreaseLoop]
    split
    · simp
    · rw [ih]; simp

theorem Increase_length (ip : IP) : (Increase ip).length = ip.length :=
  IncreaseLoop_length _ _

theorem bigEndian_IncreaseLoop (j : Nat) (ip : IP) (hj : j ≤ ip.length) :
    bigEndian (IncreaseLoop j ip) = (bigEndian ip + 256 ^ (ip.length - j)) % 256 ^ ip.length := by
  induction j generalizing ip with
  | zero =>
    simp only [IncreaseLoop, Nat.sub_zero, Nat.add_mod_right]
    exact (Nat.mod_eq_of_lt (bigEndian_lt ip)).symm
  | succ j ih =>
    have hj1 : j < ip.length := hj
    have hset := bigEndian_set ip j (Byte.inc (ip.getD j 0)) hj1
    have hlt := bigEndian_lt (ip.set j (Byte.inc (ip.getD j 0)))
    rw [List.length_set] at hlt
    have hget : (ip.set j (Byte.inc (ip.getD j 0))).getD j 0 = Byte.inc (ip.getD j 0) := by
      simp [List.getD_eq_getElem?_getD, List.getElem?_set, hj1]
    have hb := (ip.getD j 0).isLt
    have e1 : ip.length - j = (ip.length - 1 - j) + 1 := by omega
    have e2 : ip.length - (j + 1) = ip.length - 1 - j := by omega
    simp only [IncreaseLoop, hget]
    split
    · rename_i hpos
      have hv : (Byte.inc (ip.getD j 0)).val = (ip.getD j 0).val + 1 := by
        simp only [Byte.inc] at hpos ⊢
        omega
      rw [hv] at hset
      rw [e2]
      have : bigEndian (ip.set j (Byte.inc (ip.getD j 0)))
          = bigEndian ip + 256 ^ (ip.length - 1 - j) := by
        rw [Nat.add_mul, Nat.one_mul] at hset
        omega
      rw [this] at hlt ⊢
      exact (Nat.mod_eq_of_lt hlt).symm
    · rename_i hpos
      have hv : (Byte.inc (ip.getD j 0)).val = 0 := by omega
      have hv2 : (ip.getD j 0).val = 255 := by
        simp only [Byte.inc] at hv
        omega
      rw [hv, hv2] at hset
      rw [ih _ (by rw [List.length_set]; omega), List.length_set, e1, e2, pow_succ]
      congr 1
      omega

/-- One call of `Increase` adds one to the big-endian value, modulo `256 ^ len`. -/
theorem bigEndian_Increase (ip : IP) :
    bigEndian (Increase ip) = (bigEndian ip + 1) % 256 ^ ip.length := by
  have := bigEndian_IncreaseLoop ip.length ip (le_refl _)
  simpa [Increase] using this

theorem iterate_Increase_length (k : Nat) (ip : IP) :
    (Increase^[k] ip).length = ip.length := by
  induction k with
  | zero => rfl
  | succ k ih => rw [Function.iterate_succ_apply', Increase_length, ih]

theorem bigEndian_iterate_Increase (k : Nat) (ip : IP) :
    bigEndian (Increase^[k] ip) = (bigEndian ip + k) % 256 ^ ip.length := by
  induction k with
  | zero => simpa using (Nat.mod_eq_of_lt (bigEndian_lt ip)).symm
  | succ k ih =>
    rw [Function.iterate_succ_apply', bigEndian_Increase, ih, iterate_Increase_length]
    rw [Nat.add_mod, Nat.mod_mod, ← Nat.add_mod, Nat.add_assoc]


theorem pow256 (k : Nat) : 256 ^ k = 2 ^ (8 * k) := by
  rw [pow_mul]; norm_num

theorem bigEndian_inj : ∀ (a b : List Byte), a.length = b.length →
    bigEndian a = bigEndian b → a = b
  | [], [], _, _ => rfl
  | [], _ :: _, h, _ => by simp at h
  | _ :: _, [], h, _ => by simp at h
  | x :: xs, y :: ys, h, hv => by
    have hl : xs.length = ys.length := by simpa using h
    simp only [bigEndian, hl] at hv
    have h1 := bigEndian_lt xs
    have h2 := bigEndian_lt ys
    rw [hl] at h1
    have hp : 0 < 256 ^ ys.length := Nat.pos_of_ne_zero (by positivity)
    have hxy : x.val = y.val := by
      rcases Nat.lt_trichotomy x.val y.val with hlt | heq | hgt
      · exfalso
        have : (x.val + 1) * 256 ^ ys.length ≤ y.val * 256 ^ ys.length :=
          Nat.mul_le_mul_right _ hlt
        rw [Nat.add_mul, Nat.one_mul] at this
        omega
      · exact heq
      · exfalso
        have : (y.val + 1) * 256 ^ ys.length ≤ x.val * 256 ^ ys.length :=
          Nat.mul_le_mul_right _ hgt
        rw [Nat.add_mul, Nat.one_mul] at this
        omega
    rw [hxy] at hv
    have hrest : bigEndian xs = bigEndian ys := by omega
    rw [Fin.ext hxy, bigEndian_inj xs ys hl hrest]

/-! ### Bitwise operations on blocks -/

theorem and_block (i a b c d : Nat) (hb : b < 2 ^ i) (hd : d < 2 ^ i) :
    (2 ^ i * a + b) &&& (2 ^ i * c + d) = 2 ^ i * (a &&& c) + (b &&& d) := by
  apply Nat.eq_of_testBit_eq
  intro j
  rw [Nat.testBit_and, Nat.testBit_mul_pow_two_add _ hb, Nat.testBit_mul_pow_two_add _ hd,
    Nat.testBit_mul_pow_two_add _ (Nat.and_lt_two_pow b hd)]
  split <;> simp

theorem or_block (i a b c d : Nat) (hb : b < 2 ^ i) (hd : d < 2 ^ i) :
    (2 ^ i * a + b) ||| (2 ^ i * c + d) = 2 ^ i * (a ||| c) + (b ||| d) := by
  apply Nat.eq_of_testBit_eq
  intro j
  rw [Nat.testBit_or, Nat.testBit_mul_pow_two_add _ hb, Nat.testBit_mul_pow_two_add _ hd,
    Nat.testBit_mul_pow_two_add _ (Nat.or_lt_two_pow hb hd)]
  split <;> simp

/-- ANDing with the mask `2^w - 2^h` clears the low `h` bits. -/
theorem and_highMask (x w h : Nat) (hx : x < 2 ^ w) (hh : h ≤ w) :
    x &&& (2 ^ w - 2 ^ h) = 2 ^ h * (x / 2 ^ h) := by
  have hpos : 0 < 2 ^ h := Nat.pos_of_ne_zero (by positivity)
  have e1 : x = 2 ^ h * (x / 2 ^ h) + x % 2 ^ h := (Nat.div_add_mod x (2 ^ h)).symm
  have e2 : 2 ^ w - 2 ^ h = 2 ^ h * (2 ^ (w - h) - 1) + 0 := by
    rw [Nat.add_zero, Nat.mul_sub, Nat.mul_one, ← pow_add]
    congr 2
    omega
  have hq : x / 2 ^ h < 2 ^ (w - h) := by
    rw [Nat.div_lt_iff_lt_mul hpos, ← pow_add]
    have : w - h + h = w := by omega
    rwa [this]
  conv_lhs => rw [e1, e2]
  rw [and_block _ _ _ _ _ (Nat.mod_lt _ hpos) hpos, Nat.and_zero, Nat.add_zero,
    Nat.and_pow_two_sub_one_of_lt_two_pow hq]

theorem Byte.or_val (a b : Byte) : (Byte.or a b).val = a.val ||| b.val := by
  simp only [Byte.or]
  apply Nat.mod_eq_of_lt
  exact Nat.or_lt_two_pow (n := 8) a.isLt b.isLt

theorem andBytes_length (a b : List Byte) (h : a.length = b.length) :
    (andBytes a b).length = a.length := by
  simp [andBytes, h]

theorem bigEndian_andBytes : ∀ (a b : List Byte), a.length = b.length →
    bigEndian (andBytes a b) = bigEndian a &&& bigEndian b
  | [], [], _ => by simp [andBytes, bigEndian]
  | [], _ :: _, h => by simp at h
  | _ :: _, [], h => by simp at h
  | x :: xs, y :: ys, h => by
    have hl : xs.length = ys.length := by simpa using h
    have ih := bigEndian_andBytes xs ys hl
    have h1 := bigEndian_lt xs
    have h2 := bigEndian_lt ys
    rw [pow256] at h1 h2
    rw [← hl] at h2
    have hlen : (andBytes xs ys).length = xs.length := andBytes_length xs ys hl
    simp only [andBytes, List.zipWith_cons_cons, bigEndian] at ih ⊢
    simp only [andBytes] at hlen
    rw [hlen, ih, ← hl, pow256, Nat.mul_comm x.val, Nat.mul_comm y.val,
      and_block _ _ _ _ _ h1 h2, Nat.mul_comm]
    rfl

theorem orNotBytes_length (a m : List Byte) (h : a.length = m.length) :
    (orNotBytes a m).length = a.length := by
  simp [orNotBytes, h]

theorem bigEndian_orNotBytes : ∀ (a m : List Byte), a.length = m.length →
    bigEndian (orNotBytes a m) = bigEndian a ||| (256 ^ m.length - 1 - bigEndian m)
  | [], [], _ => by simp [orNotBytes, bigEndian]
  | [], _ :: _, h => by simp at h
  | _ :: _, [], h => by simp at h
  | x :: xs, y :: ys, h => by
    have hl : xs.length = ys.length := by simpa using h
    have ih := bigEndian_orNotBytes xs ys hl
    have h1 := bigEndian_lt xs
    have h2 := bigEndian_lt ys
    have hy := y.isLt
    have hlen : (orNotBytes xs ys).length = xs.length := orNotBytes_length xs ys hl
    have hp : 0 < 256 ^ ys.length := Nat.pos_of_ne_zero (by positivity)
    have hnot : 256 ^ (ys.length + 1) - 1 - (y.val * 256 ^ ys.length + bigEndian ys)
        = 2 ^ (8 * ys.length) * (255 - y.val) + (256 ^ ys.length - 1 - bigEndian ys) := by
      rw [← pow256, pow_succ, Nat.mul_sub, Nat.mul_comm (256 ^ ys.length) y.val]
      have : y.val * 256 ^ ys.length ≤ 255 * 256 ^ ys.length :=
        Nat.mul_le_mul_right _ (by omega)
      omega
    simp only [orNotBytes, List.zipWith_cons_cons, bigEndian, List.length_cons] at ih ⊢
    simp only [orNotBytes] at hlen
    rw [hlen, ih, hnot, Byte.or_val, hl, pow256 ys.length, Nat.mul_comm _ (2 ^ (8 * ys.length)),
      Nat.mul_comm x.val, or_block]
    · rfl
    · rw [← pow256, ← hl]; exact h1
    · rw [← pow256]; omega

/-! ### The value of a prefix mask -/

theorem CIDRMaskLoop_length (l n : Nat) : (CIDRMaskLoop l n).length = l := by
  induction l generalizing n with
  | zero => rfl
  | succ l ih =>
    simp only [CIDRMaskLoop]
    split <;> simp [ih]

theorem bigEndian_CIDRMaskLoop (l n : Nat) (h : n ≤ 8 * l) :
    bigEndian (CIDRMaskLoop l n) = 2 ^ (8 * l) - 2 ^ (8 * l - n) := by
  induction l generalizing n with
  | zero => simp [CIDRMaskLoop, bigEndian]
  | succ l ih =>
    simp only [CIDRMaskLoop]
    split
    · rename_i h8
      have e := ih (n - 8) (by omega)
      have e3 : 8 * (l + 1) - n = 8 * l - (n - 8) := by omega
      have hle : 2 ^ (8 * l - (n - 8)) ≤ 2 ^ (8 * l) :=
        Nat.pow_le_pow_right (by decide) (by omega)
      simp only [bigEndian, CIDRMaskLoop_length, e, e3]
      rw [pow256, show 8 * (l + 1) = 8 * l + 8 by ring, pow_add]
      have : ((0xff : Byte) : Nat) = 255 := rfl
      rw [this]
      omega
    · rename_i h8
      have e := ih 0 (by omega)
      simp only [Nat.sub_zero, Nat.sub_self] at e
      simp only [bigEndian, CIDRMaskLoop_length, e, Nat.add_zero]
      have hn : n < 8 := by omega
      have e3 : 8 * l + 8 - n = 8 * l + (8 - n) := by omega
      rw [pow256, show 8 * (l + 1) = 8 * l + 8 by ring, e3, pow_add, pow_add]
      have hb : (Byte.not ⟨(255 >>> n) % 256, Nat.mod_lt _ (by decide)⟩).val
          = 2 ^ 8 - 2 ^ (8 - n) := by
        simp only [Byte.not]
        interval_cases n <;> rfl
      rw [hb, Nat.sub_mul, Nat.mul_comm (2 ^ 8), Nat.mul_comm (2 ^ (8 - n))]


/-! ### `copy`, `To4`, `IP.Mask` and `Contains` -/

theorem copy_eq (dst src : List Byte) (h : dst.length = src.length) : copy dst src = src := by
  simp [copy, h]

theorem make_length (k : Nat) : (make k).length = k := by
  simp [make]

theorem length16 (ip : List Byte) (h : ip.length = 16) :
    ∃ a0 a1 a2 a3 a4 a5 a6 a7 a8 a9 a10 a11 a12 a13 a14 a15 : Byte,
      ip = [a0, a1, a2, a3, a4, a5, a6, a7, a8, a9, a10, a11, a12, a13, a14, a15] := by
  match ip, h with
  | [a0, a1, a2, a3, a4, a5, a6, a7, a8, a9, a10, a11, a12, a13, a14, a15], _ =>
    exact ⟨a0, a1, a2, a3, a4, a5, a6, a7, a8, a9, a10, a11, a12, a13, a14, a15, rfl⟩

theorem length4 (ip : List Byte) (h : ip.length = 4) :
    ∃ a0 a1 a2 a3 : Byte, ip = [a0, a1, a2, a3] := by
  match ip, h with
  | [a0, a1, a2, a3], _ => exact ⟨a0, a1, a2, a3, rfl⟩

/-- The test of `To4` on a 16-byte address is the comparison of its first twelve
bytes with `v4InV6`. -/
theorem mapped_iff (ip : List Byte) (h : ip.length = 16) :
    (isZeros (ip.take 10) = true ∧ ip.getD 10 0 = 0xff ∧ ip.getD 11 0 = 0xff)
      ↔ ip.take 12 = v4InV6 := by
  obtain ⟨a0, a1, a2, a3, a4, a5, a6, a7, a8, a9, a10, a11, a12, a13, a14, a15, rfl⟩ :=
    length16 ip h
  simp [isZeros, v4InV6, and_assoc]

theorem To4_of_length4 (a : IP) (h : a.length = 4) : To4 a = some a := by
  simp [To4, IPv4len, h]

theorem To4_cases (ip a : IP) (h : To4 ip = some a) :
    (ip.length = 4 ∧ a = ip) ∨ (ip.length = 16 ∧ ip.take 12 = v4InV6 ∧ a = ip.drop 12) := by
  unfold To4 at h
  split at h
  · left
    rename_i h4
    exact ⟨h4, by simpa using h.symm⟩
  · split at h
    · right
      rename_i h16
      have hl : ip.length = 16 := h16.1
      refine ⟨hl, (mapped_iff ip hl).1 h16.2, ?_⟩
      have : ip.take 16 = ip := by rw [← hl]; exact List.take_length ip
      rw [this] at h
      simpa using h.symm
    · simp at h

theorem To4_length (ip a : IP) (h : To4 ip = some a) : a.length = 4 := by
  rcases To4_cases ip a h with ⟨h4, rfl⟩ | ⟨h16, _, rfl⟩
  · exact h4
  · simp [h16]

theorem To4_eq_none_iff (ip : IP) (h : ip.length = 16) :
    To4 ip = none ↔ ip.take 12 ≠ v4InV6 := by
  unfold To4
  rw [if_neg (by rw [h]; decide)]
  constructor
  · intro hn hm
    rw [if_pos ⟨h, (mapped_iff ip h).2 hm⟩] at hn
    simp at hn
  · intro hn
    rw [if_neg]
    rintro ⟨_, hz⟩
    exact hn ((mapped_iff ip h).1 hz)

theorem IPMaskApply_of_To4 (ip a : IP) (mask : IPMask) (h : To4 ip = some a)
    (hm : mask.length = 4) : IPMaskApply ip mask = some (andBytes a mask) := by
  rcases To4_cases ip a h with ⟨h4, rfl⟩ | ⟨h16, hpre, rfl⟩
  · simp [IPMaskApply, IPv4len, IPv6len, hm, h4, andBytes]
  · simp [IPMaskApply, IPv4len, IPv6len, hm, h16, hpre, andBytes]

theorem IPMaskApply_of_length16 (ip : IP) (mask : IPMask) (h : ip.length = 16)
    (hm : mask.length = 16) : IPMaskApply ip mask = some (andBytes ip mask) := by
  simp [IPMaskApply, IPv4len, IPv6len, hm, h, andBytes]

theorem containsLoop_iff : ∀ (nn : IP) (m : IPMask) (ip : IP), nn.length = ip.length →
    m.length = ip.length → (containsLoop nn m ip = true ↔ andBytes nn m = andBytes ip m)
  | [], [], [], _, _ => by simp [containsLoop, andBytes]
  | [], _, _ :: _, h, _ => by simp at h
  | _ :: _, _, [], h, _ => by simp at h
  | _, [], _ :: _, _, h => by simp at h
  | [], _ :: _, [], _, h => by simp at h
  | x :: nn, y :: m, z :: ip, h1, h2 => by
    have ih := containsLoop_iff nn m ip (by simpa using h1) (by simpa using h2)
    simp only [containsLoop, andBytes, List.zipWith_cons_cons, List.cons.injEq] at ih ⊢
    by_cases hb : Byte.and x y = Byte.and z y
    · simp [hb, ih]
    · simp [hb]

theorem networkNumberAndMask_v4 (n : IPNet) (a : IP) (h : To4 n.IP = some a)
    (hm : n.Mask.length = 4) : networkNumberAndMask n = (a, n.Mask) := by
  simp [networkNumberAndMask, h, hm, IPv4len]

theorem networkNumberAndMask_v6 (n : IPNet) (h : To4 n.IP = none) (hl : n.IP.length = 16)
    (hm : n.Mask.length = 16) : networkNumberAndMask n = (n.IP, n.Mask) := by
  simp [networkNumberAndMask, h, hm, hl, IPv4len, IPv6len]

/-- Containment of a 4-byte address in an IPv4 network with a 4-byte mask. -/
theorem Contains_v4 (n : IPNet) (a ip : IP) (h : To4 n.IP = some a) (hm : n.Mask.length = 4)
    (hip : ip.length = 4) :
    Contains n ip = true ↔ andBytes a n.Mask = andBytes ip n.Mask := by
  have ha := To4_length _ _ h
  simp only [Contains, networkNumberAndMask_v4 n a h hm, To4_of_length4 ip hip, hip, ha,
    ne_eq, not_true_eq_false, if_false]
  exact containsLoop_iff a n.Mask ip (by rw [ha, hip]) (by rw [hm, hip])

/-- Containment of a 16-byte address in an IPv6 network with a 16-byte mask: the
address must not be IPv4-mapped. -/
theorem Contains_v6 (n : IPNet) (ip : IP) (h : To4 n.IP = none) (hl : n.IP.length = 16)
    (hm : n.Mask.length = 16) (hip : ip.length = 16) :
    Contains n ip = true ↔ (To4 ip = none ∧ andBytes n.IP n.Mask = andBytes ip n.Mask) := by
  simp only [Contains, networkNumberAndMask_v6 n h hl hm]
  cases h4 : To4 ip with
  | none =>
    simp only [hip, hl, ne_eq, not_true_eq_false, if_false, true_and]
    exact containsLoop_iff n.IP n.Mask ip (by rw [hl, hip]) (by rw [hm, hip])
  | some x =>
    have hx := To4_length _ _ h4
    simp [hx, hl]

/-! ### Prefix masks, numerically -/

theorem bigEndian_andBytes_cidr (l p : Nat) (a : List Byte) (hp : p ≤ 8 * l)
    (ha : a.length = l) :
    bigEndian (andBytes a (CIDRMaskLoop l p)) = 2 ^ (8 * l - p) * (bigEndian a / 2 ^ (8 * l - p)) := by
  rw [bigEndian_andBytes _ _ (by rw [ha, CIDRMaskLoop_length]), bigEndian_CIDRMaskLoop l p hp]
  apply and_highMask
  · rw [← pow256, ← ha]; exact bigEndian_lt a
  · omega

theorem andBytes_cidr_iff (l p : Nat) (a b : List Byte) (hp : p ≤ 8 * l)
    (ha : a.length = l) (hb : b.length = l) :
    andBytes a (CIDRMaskLoop l p) = andBytes b (CIDRMaskLoop l p)
      ↔ bigEndian a / 2 ^ (8 * l - p) = bigEndian b / 2 ^ (8 * l - p) := by
  have hpos : 0 < 2 ^ (8 * l - p) := Nat.pos_of_ne_zero (by positivity)
  constructor
  · intro h
    have := congrArg bigEndian h
    rw [bigEndian_andBytes_cidr l p a hp ha, bigEndian_andBytes_cidr l p b hp hb] at this
    exact Nat.eq_of_mul_eq_mul_left hpos this
  · intro h
    apply bigEndian_inj
    · rw [andBytes_length _ _ (by rw [ha, CIDRMaskLoop_length]),
        andBytes_length _ _ (by rw [hb, CIDRMaskLoop_length]), ha, hb]
    · rw [bigEndian_andBytes_cidr l p a hp ha, bigEndian_andBytes_cidr l p b hp hb, h]

/-! ### The scan for the last address -/

/-- The scan started at `Increase x` with `x` recorded: when the next `k`
addresses are contained in the network and the one after them is not, the scan
ends with the `k`-th address after `x`, provided the fuel covers the `k + 1`
evaluations of the condition. -/
theorem scanLast_eq (n : IPNet) (k : Nat) : ∀ (fuel : Nat) (x : IP), k < fuel →
    (∀ i, 1 ≤ i → i ≤ k → Contains n (Increase^[i] x) = true) →
    Contains n (Increase^[k + 1] x) = false →
    scanLast n fuel (Increase x) x = some (Increase^[k + 1] x, Increase^[k] x) := by
  induction k with
  | zero =>
    intro fuel x hf _ hout
    obtain ⟨f, rfl⟩ : ∃ f, fuel = f + 1 := ⟨fuel - 1, by omega⟩
    simp only [Function.iterate_succ, Function.iterate_zero, Function.comp_apply, id_eq] at hout
    simp [scanLast, hout]
  | succ k ih =>
    intro fuel x hf hin hout
    obtain ⟨f, rfl⟩ : ∃ f, fuel = f + 1 := ⟨fuel - 1, by omega⟩
    have h1 : Contains n (Increase x) = true := by
      simpa using hin 1 (le_refl _) (by omega)
    have hc : copy x (Increase x) = Increase x := copy_eq _ _ (Increase_length x).symm
    simp only [scanLast, h1, if_true, hc]
    rw [ih f (Increase x) (by omega)]
    · rw [← Function.iterate_succ_apply, ← Function.iterate_succ_apply]
    · intro i hi1 hik
      rw [← Function.iterate_succ_apply]
      exact hin (i + 1) (by omega) (by omega)
    · rw [← Function.iterate_succ_apply]
      exact hout

/-- The scan does not end while every address it meets is contained. -/
theorem scanLast_none (n : IPNet) : ∀ (fuel : Nat) (ip last : IP),
    (∀ i, i < fuel → Contains n (Increase^[i] ip) = true) → scanLast n fuel ip last = none := by
  intro fuel
  induction fuel with
  | zero => intro ip last _; rfl
  | succ f ih =>
    intro ip last h
    have h0 : Contains n ip = true := by simpa using h 0 (by omega)
    simp only [scanLast, h0, if_true]
    apply ih
    intro i hi
    rw [← Function.iterate_succ_apply]
    exact h (i + 1) (by omega)


/-! ### Stepping through a block of `2 ^ h` addresses -/

theorem block_inside (q h w i : Nat) (hh : h ≤ w) (hq : q < 2 ^ (w - h)) (hi : i < 2 ^ h) :
    (2 ^ h * q + i) % 2 ^ w = 2 ^ h * q + i ∧ (2 ^ h * q + i) / 2 ^ h = q := by
  have hpos : 0 < 2 ^ h := Nat.pos_of_ne_zero (by positivity)
  have hw : 2 ^ w = 2 ^ h * 2 ^ (w - h) := by
    rw [← pow_add]; congr 1; omega
  have h1 : 2 ^ h * (q + 1) ≤ 2 ^ h * 2 ^ (w - h) := Nat.mul_le_mul_left _ hq
  rw [Nat.mul_add, Nat.mul_one] at h1
  constructor
  · apply Nat.mod_eq_of_lt
    omega
  · rw [Nat.mul_add_div hpos, Nat.div_eq_of_lt hi, Nat.add_zero]

theorem block_after (q h w : Nat) (hh : h < w) (hq : q < 2 ^ (w - h)) :
    (2 ^ h * q + 2 ^ h) % 2 ^ w / 2 ^ h ≠ q := by
  have hpos : 0 < 2 ^ h := Nat.pos_of_ne_zero (by positivity)
  have hw : 2 ^ w = 2 ^ h * 2 ^ (w - h) := by
    rw [← pow_add]; congr 1; omega
  have h2 : 2 ≤ 2 ^ (w - h) := by
    calc 2 = 2 ^ 1 := rfl
      _ ≤ 2 ^ (w - h) := Nat.pow_le_pow_right (by decide) (by omega)
  have e : 2 ^ h * q + 2 ^ h = 2 ^ h * (q + 1) := by rw [Nat.mul_add, Nat.mul_one]
  rw [e]
  rcases Nat.lt_or_ge (q + 1) (2 ^ (w - h)) with hlt | hge
  · have : 2 ^ h * (q + 1) < 2 ^ w := by
      rw [hw]; exact Nat.mul_lt_mul_of_pos_left hlt hpos
    rw [Nat.mod_eq_of_lt this, Nat.mul_div_cancel_left _ hpos]
    omega
  · have hq1 : q + 1 = 2 ^ (w - h) := by omega
    rw [hq1, ← hw, Nat.mod_self, Nat.zero_div]
    omega

/-! ### `GetList4` on a network with a prefix mask -/

theorem CIDRMask_32 (p : Nat) (m : IPMask) (h : CIDRMask p 32 = some m) :
    m = CIDRMaskLoop 4 p ∧ p ≤ 32 := by
  unfold CIDRMask at h
  simp only [IPv4len, IPv6len] at h
  split at h
  · simp at h
  · split at h
    · simp at h
    · rename_i h1
      refine ⟨by simpa using h.symm, by omega⟩

theorem bigEndian_Mask32 : bigEndian Mask32 = 2 ^ 32 - 1 := by
  decide

theorem bigEndian_Mask31 : bigEndian Mask31 = 2 ^ 32 - 2 := by
  decide

theorem CIDRMaskLoop_ne_Mask32 (p : Nat) (hp : p ≤ 31) : CIDRMaskLoop 4 p ≠ Mask32 := by
  intro h
  have := congrArg bigEndian h
  rw [bigEndian_CIDRMaskLoop 4 p (by omega), bigEndian_Mask32] at this
  have h2 : 2 ^ 1 ≤ 2 ^ (8 * 4 - p) := Nat.pow_le_pow_right (by decide) (by omega)
  have h3 : 2 ^ (8 * 4 - p) ≤ 2 ^ 32 := Nat.pow_le_pow_right (by decide) (by omega)
  omega

theorem CIDRMaskLoop_ne_Mask31 (p : Nat) (hp : p ≤ 30) : CIDRMaskLoop 4 p ≠ Mask31 := by
  intro h
  have := congrArg bigEndian h
  rw [bigEndian_CIDRMaskLoop 4 p (by omega), bigEndian_Mask31] at this
  have h2 : 2 ^ 2 ≤ 2 ^ (8 * 4 - p) := Nat.pow_le_pow_right (by decide) (by omega)
  have h3 : 2 ^ (8 * 4 - p) ≤ 2 ^ 32 := Nat.pow_le_pow_right (by decide) (by omega)
  omega

/-- Containment of the `i`-th address after the network address of an IPv4
network with a `/p` mask, as a comparison of quotients by `2 ^ (32 - p)`. -/
theorem Contains_iterate_v4 (n : IPNet) (a : IP) (p i : Nat) (ha : To4 n.IP = some a)
    (hm : n.Mask = CIDRMaskLoop 4 p) (hp : p ≤ 32) :
    Contains n (Increase^[i] (andBytes a n.Mask)) = true
      ↔ (2 ^ (32 - p) * (bigEndian a / 2 ^ (32 - p)) + i) % 2 ^ 32 / 2 ^ (32 - p)
          = bigEndian a / 2 ^ (32 - p) := by
  have hal := To4_length _ _ ha
  have hml : n.Mask.length = 4 := by rw [hm, CIDRMaskLoop_length]
  have hfl : (andBytes a n.Mask).length = 4 := by
    rw [andBytes_length _ _ (by rw [hal, hml]), hal]
  have hil : (Increase^[i] (andBytes a n.Mask)).length = 4 := by
    rw [iterate_Increase_length, hfl]
  rw [Contains_v4 n a _ ha hml hil]
  rw [hm] at hfl hil ⊢
  rw [andBytes_cidr_iff 4 p _ _ (by omega) hal hil, bigEndian_iterate_Increase, hfl,
    bigEndian_andBytes_cidr 4 p a (by omega) hal]
  have e : 8 * 4 - p = 32 - p := by omega
  have e2 : (256 : Nat) ^ 4 = 2 ^ 32 := by norm_num
  rw [e, e2]
  exact eq_comm

theorem quotient_lt (a : IP) (p : Nat) (hal : a.length = 4) (hp : p ≤ 32) :
    bigEndian a / 2 ^ (32 - p) < 2 ^ (32 - (32 - p)) := by
  have hpos : 0 < 2 ^ (32 - p) := Nat.pos_of_ne_zero (by positivity)
  rw [Nat.div_lt_iff_lt_mul hpos, ← pow_add]
  have : 32 - (32 - p) + (32 - p) = 32 := by omega
  rw [this]
  have := bigEndian_lt a
  rw [hal] at this
  have e2 : (256 : Nat) ^ 4 = 2 ^ 32 := by norm_num
  omega

/-- The result of `GetList4` on a valid IPv4 network with a 4-byte mask other
than `/32`, when the scan meets `k` contained addresses and then one that is not
contained, and the fuel covers its `k + 1` evaluations of the condition. -/
theorem GetList4_scan (n : IPNet) (a : IP) (k fuel : Nat) (ha : To4 n.IP = some a)
    (hml : n.Mask.length = 4) (h32 : n.Mask ≠ Mask32) (hk : k < fuel)
    (hin : ∀ i, 1 ≤ i → i ≤ k → Contains n (Increase^[i] (andBytes a n.Mask)) = true)
    (hout : Contains n (Increase^[k + 1] (andBytes a n.Mask)) = false) :
    GetList4 fuel n = some
      { first := some (andBytes a n.Mask)
        last := some (Increase^[k] (andBytes a n.Mask))
        usable := if n.Mask = Mask31 then none else some
          { ip := andBytes a n.Mask, last := Increase^[k] (andBytes a n.Mask) }
        err := none } := by
  have hal := To4_length _ _ ha
  have hfl : (andBytes a n.Mask).length = 4 := by
    rw [andBytes_length _ _ (by rw [hal, hml]), hal]
  have hc : copy (make 4) (andBytes a n.Mask) = andBytes a n.Mask :=
    copy_eq _ _ (by rw [make_length, hfl])
  have hscan := scanLast_eq n k fuel _ hk hin hout
  have hv : IsValid4IP n.IP = true := by simp [IsValid4IP, ha]
  simp only [GetList4, hv, Bool.true_eq_false, if_false, hml, IPv4len, ne_eq, not_true_eq_false,
    IPMaskApply_of_To4 _ _ _ ha hml, Option.getD_some, h32, hc, hscan]
  by_cases h31 : n.Mask = Mask31
  · simp [h31]
  · simp only [h31, if_false]
    rw [copy_eq _ _ (iterate_Increase_length _ _)]

/-- The result of `GetList6` on a 16-byte address that is not IPv4-mapped with a
16-byte mask other than `/128`, when the scan meets `k` contained addresses and
then one that is not contained, and the fuel covers its `k + 1` evaluations of
the condition. -/
theorem GetList6_scan (n : IPNet) (k fuel : Nat)
    (hl : n.IP.length = 16) (hml : n.Mask.length = 16) (h128 : n.Mask ≠ Mask128) (hk : k < fuel)
    (hin : ∀ i, 1 ≤ i → i ≤ k → Contains n (Increase^[i] (andBytes n.IP n.Mask)) = true)
    (hout : Contains n (Increase^[k + 1] (andBytes n.IP n.Mask)) = false) :
    GetList6 fuel n = some
      { first := some (andBytes n.IP n.Mask)
        last := some (Increase^[k] (andBytes n.IP n.Mask))
        usable := if n.Mask = Mask127 then none else some
          { ip := andBytes n.IP n.Mask, last := Increase^[k] (andBytes n.IP n.Mask) }
        err := none } := by
  have hfl : (andBytes n.IP n.Mask).length = 16 := by
    rw [andBytes_length _ _ (by rw [hl, hml]), hl]
  have hc : copy (make 16) (andBytes n.IP n.Mask) = andBytes n.IP n.Mask :=
    copy_eq _ _ (by rw [make_length, hfl])
  have hscan := scanLast_eq n k fuel _ hk hin hout
  have hv : IsValid6IP n.IP = true := by simp [IsValid6IP, To16, IPv4len, IPv6len, hl]
  simp only [GetList6, hv, Bool.true_eq_false, if_false, hml, IPv6len, ne_eq, not_true_eq_false,
    IPMaskApply_of_length16 _ _ hl hml, Option.getD_some, h128, hc, hscan]
  by_cases h127 : n.Mask = Mask127
  · simp [h127]
  · simp only [h127, if_false]
    rw [copy_eq _ _ (iterate_Increase_length _ _)]

/-- The result of `GetList4` on a valid IPv4 network with a `/p` mask,
`1 ≤ p ≤ 31`, once the fuel covers the `2 ^ (32 - p)` steps of the scan: the
last address is `2 ^ (32 - p) - 1` steps after the first. -/
theorem GetList4_cidr (n : IPNet) (a : IP) (p fuel : Nat) (ha : To4 n.IP = some a)
    (hm : n.Mask = CIDRMaskLoop 4 p) (hp1 : 1 ≤ p) (hp : p ≤ 31) (hf : 2 ^ (32 - p) ≤ fuel) :
    GetList4 fuel n = some
      { first := some (andBytes a n.Mask)
        last := some (Increase^[2 ^ (32 - p) - 1] (andBytes a n.Mask))
        usable := if p = 31 then none else some
          { ip := andBytes a n.Mask, last := Increase^[2 ^ (32 - p) - 1] (andBytes a n.Mask) }
        err := none } := by
  have hal := To4_length _ _ ha
  have hml : n.Mask.length = 4 := by rw [hm, CIDRMaskLoop_length]
  have hq := quotient_lt a p hal (by omega)
  have hpos : 0 < 2 ^ (32 - p) := Nat.pos_of_ne_zero (by positivity)
  have h32 : n.Mask ≠ Mask32 := by rw [hm]; exact CIDRMaskLoop_ne_Mask32 p hp
  have h31 : (n.Mask = Mask31) = (p = 31) := by
    apply propext
    constructor
    · intro h
      by_contra hne
      exact CIDRMaskLoop_ne_Mask31 p (by omega) (hm ▸ h)
    · intro h
      rw [hm, h]
      decide
  rw [GetList4_scan n a (2 ^ (32 - p) - 1) fuel ha hml h32 (by omega)]
  · simp only [h31]
  · intro i _ hi
    rw [Contains_iterate_v4 n a p i ha hm (by omega)]
    rw [(block_inside _ (32 - p) 32 i (by omega) hq (by omega)).1]
    exact (block_inside _ (32 - p) 32 i (by omega) hq (by omega)).2
  · have e : 2 ^ (32 - p) - 1 + 1 = 2 ^ (32 - p) := by omega
    rw [e, Bool.eq_false_iff, ne_eq, Contains_iterate_v4 n a p _ ha hm (by omega)]
    exact block_after _ (32 - p) 32 (by omega) hq

/-- The address `2 ^ (32 - p) - 1` steps after the network address of a `/p`
network is the network address with every host bit set. -/
theorem iterate_eq_orNotBytes (a : IP) (p : Nat) (hal : a.length = 4) (hp : p ≤ 32) :
    Increase^[2 ^ (32 - p) - 1] (andBytes a (CIDRMaskLoop 4 p))
      = orNotBytes (andBytes a (CIDRMaskLoop 4 p)) (CIDRMaskLoop 4 p) := by
  have hml : (CIDRMaskLoop 4 p).length = 4 := CIDRMaskLoop_length 4 p
  have hfl : (andBytes a (CIDRMaskLoop 4 p)).length = 4 := by
    rw [andBytes_length _ _ (by rw [hal, hml]), hal]
  have hq := quotient_lt a p hal hp
  have hpos : 0 < 2 ^ (32 - p) := Nat.pos_of_ne_zero (by positivity)
  have hle : 2 ^ (32 - p) ≤ 2 ^ 32 := Nat.pow_le_pow_right (by decide) (by omega)
  have e : 8 * 4 - p = 32 - p := by omega
  have e2 : (256 : Nat) ^ 4 = 2 ^ 32 := by norm_num
  apply bigEndian_inj
  · rw [iterate_Increase_length, orNotBytes_length _ _ (by rw [hfl, hml])]
  · rw [bigEndian_iterate_Increase, bigEndian_orNotBytes _ _ (by rw [hfl, hml]), hfl, hml,
      bigEndian_andBytes_cidr 4 p a (by omega) hal, bigEndian_CIDRMaskLoop 4 p (by omega),
      e, e2]
    have e3 : 2 ^ 32 - 1 - (2 ^ 32 - 2 ^ (32 - p)) = 2 ^ (32 - p) - 1 := by omega
    rw [e3, ← Nat.mul_add_lt_is_or (by omega)]
    exact (block_inside _ (32 - p) 32 _ (by omega) hq (by omega)).1

/-! ### The usable sequence -/

theorem IPEqual_of_length_eq (a b : IP) (h : a.length = b.length) :
    IPEqual a b = decide (a = b) := by
  simp [IPEqual, h]

/-- Draining the channel whose goroutine stands at `x`: when the next `m`
addresses differ from `last` and the one after them is `last`, the consumer
receives exactly these `m` addresses, in order, provided the fuel covers the
`m + 1` receive attempts. -/
theorem drainAux_eq (last : IP) (m : Nat) : ∀ (fuel : Nat) (x : IP) (acc : List IP), m < fuel →
    (∀ i, 1 ≤ i → i ≤ m → IPEqual (Increase^[i] x) last = false) →
    IPEqual (Increase^[m + 1] x) last = true →
    Chan.drainAux fuel { ip := x, last := last } acc
      = some (acc.reverse ++ (List.range m).map (fun i => Increase^[i + 1] x)) := by
  induction m with
  | zero =>
    intro fuel x acc hf _ hlast
    obtain ⟨f, rfl⟩ : ∃ f, fuel = f + 1 := ⟨fuel - 1, by omega⟩
    simp only [Function.iterate_succ, Function.iterate_zero, Function.comp_apply, id_eq] at hlast
    simp [Chan.drainAux, Chan.recv, hlast]
  | succ m ih =>
    intro fuel x acc hf hne hlast
    obtain ⟨f, rfl⟩ : ∃ f, fuel = f + 1 := ⟨fuel - 1, by omega⟩
    have h1 : IPEqual (Increase x) last = false := by
      simpa using hne 1 (le_refl _) (by omega)
    have hc : copy (make (Increase x).length) (Increase x) = Increase x :=
      copy_eq _ _ (make_length _)
    simp only [Chan.drainAux, Chan.recv, h1, Bool.false_eq_true, if_false, hc]
    rw [ih f (Increase x) (Increase x :: acc) (by omega)]
    · simp only [List.reverse_cons, List.append_assoc, List.singleton_append, Option.some.injEq,
        List.append_cancel_left_eq]
      rw [List.range_succ_eq_map, List.map_cons, List.map_map]
      simp only [Function.iterate_succ, Function.iterate_zero, Function.comp_apply, id_eq,
        List.cons.injEq, true_and]
      rfl
    · intro i hi1 him
      rw [← Function.iterate_succ_apply]
      exact hne (i + 1) (by omega) (by omega)
    · rw [← Function.iterate_succ_apply]
      exact hlast

theorem bigEndian_iterate_v4 (a : IP) (p i : Nat) (hal : a.length = 4) (hp : p ≤ 32)
    (hi : i < 2 ^ (32 - p)) :
    bigEndian (Increase^[i] (andBytes a (CIDRMaskLoop 4 p)))
      = bigEndian (andBytes a (CIDRMaskLoop 4 p)) + i := by
  have hml : (CIDRMaskLoop 4 p).length = 4 := CIDRMaskLoop_length 4 p
  have hfl : (andBytes a (CIDRMaskLoop 4 p)).length = 4 := by
    rw [andBytes_length _ _ (by rw [hal, hml]), hal]
  have hq := quotient_lt a p hal hp
  have e : 8 * 4 - p = 32 - p := by omega
  have e2 : (256 : Nat) ^ 4 = 2 ^ 32 := by norm_num
  rw [bigEndian_iterate_Increase, hfl, bigEndian_andBytes_cidr 4 p a (by omega) hal, e, e2]
  exact (block_inside _ (32 - p) 32 i (by omega) hq hi).1

/-! ### 16-byte addresses, numerically -/

theorem bigEndian_append (a b : List Byte) :
    bigEndian (a ++ b) = bigEndian a * 256 ^ b.length + bigEndian b := by
  induction a with
  | nil => simp [bigEndian]
  | cons x xs ih =>
    have e : bigEndian (x :: xs ++ b) = x.val * 256 ^ (xs ++ b).length + bigEndian (xs ++ b) := rfl
    rw [e, ih, List.length_append, pow_add]
    simp only [bigEndian]
    ring

theorem bigEndian_take12 (l : List Byte) (h : l.length = 16) :
    bigEndian (l.take 12) = bigEndian l / 2 ^ 32 := by
  have hd : (l.drop 12).length = 4 := by simp [h]
  have hlt := bigEndian_lt (l.drop 12)
  rw [hd] at hlt
  have e2 : (256 : Nat) ^ 4 = 2 ^ 32 := by norm_num
  have hsplit : bigEndian l = bigEndian (l.take 12) * 2 ^ 32 + bigEndian (l.drop 12) := by
    conv_lhs => rw [← List.take_append_drop 12 l]
    rw [bigEndian_append, hd, e2]
  rw [hsplit, Nat.mul_comm, Nat.mul_add_div (by positivity), Nat.div_eq_of_lt (by omega),
    Nat.add_zero]

theorem bigEndian_v4InV6 : bigEndian v4InV6 = 65535 := by
  decide

/-- A 16-byte address is IPv4-mapped exactly when its upper 96 bits are
`0x00000000_00000000_0000ffff`. -/
theorem take12_eq_v4InV6_iff (l : List Byte) (h : l.length = 16) :
    l.take 12 = v4InV6 ↔ bigEndian l / 2 ^ 32 = 65535 := by
  rw [← bigEndian_take12 l h, ← bigEndian_v4InV6]
  constructor
  · intro e; rw [e]
  · intro e
    exact bigEndian_inj _ _ (by simp [h, v4InV6]) e

theorem To4_eq_none_iff_value (l : List Byte) (h : l.length = 16) :
    To4 l = none ↔ bigEndian l / 2 ^ 32 ≠ 65535 := by
  rw [To4_eq_none_iff l h, ne_eq, take12_eq_v4InV6_iff l h]

theorem CIDRMask_128 (p : Nat) (m : IPMask) (h : CIDRMask p 128 = some m) :
    m = CIDRMaskLoop 16 p ∧ p ≤ 128 := by
  unfold CIDRMask at h
  simp only [IPv4len, IPv6len] at h
  split at h
  · simp at h
  · split at h
    · simp at h
    · rename_i h1
      refine ⟨by simpa using h.symm, by omega⟩

/-- Containment of the `i`-th address after the network address of an IPv6
network with a `/p` mask: the address reached must not be IPv4-mapped and must
have the quotient by `2 ^ (128 - p)` of the network's address. -/
theorem Contains_iterate_v6 (n : IPNet) (p i : Nat) (h4 : To4 n.IP = none)
    (hl : n.IP.length = 16) (hm : n.Mask = CIDRMaskLoop 16 p) (hp : p ≤ 128) :
    Contains n (Increase^[i] (andBytes n.IP n.Mask)) = true
      ↔ ((2 ^ (128 - p) * (bigEndian n.IP / 2 ^ (128 - p)) + i) % 2 ^ 128 / 2 ^ 32 ≠ 65535
        ∧ (2 ^ (128 - p) * (bigEndian n.IP / 2 ^ (128 - p)) + i) % 2 ^ 128 / 2 ^ (128 - p)
          = bigEndian n.IP / 2 ^ (128 - p)) := by
  have hml : n.Mask.length = 16 := by rw [hm, CIDRMaskLoop_length]
  have hfl : (andBytes n.IP n.Mask).length = 16 := by
    rw [andBytes_length _ _ (by rw [hl, hml]), hl]
  have hil : (Increase^[i] (andBytes n.IP n.Mask)).length = 16 := by
    rw [iterate_Increase_length, hfl]
  have e : 8 * 16 - p = 128 - p := by omega
  have e2 : (256 : Nat) ^ 16 = 2 ^ 128 := by norm_num
  have hv : bigEndian (Increase^[i] (andBytes n.IP n.Mask))
      = (2 ^ (128 - p) * (bigEndian n.IP / 2 ^ (128 - p)) + i) % 2 ^ 128 := by
    rw [bigEndian_iterate_Increase, hfl, hm, bigEndian_andBytes_cidr 16 p _ (by omega) hl, e, e2]
  rw [Contains_v6 n _ h4 hl hml hil, To4_eq_none_iff_value _ hil, hv]
  rw [hm] at hil ⊢
  rw [andBytes_cidr_iff 16 p _ _ (by omega) hl hil, ← hm, hv, e]
  exact and_congr_right (fun _ => eq_comm)

/-! ### The branches of `GetList4`, `GetList6` and `GetList` -/

/-- The value `first` computed by `GetList4` and `GetList6`. -/
theorem first_v4 (n : IPNet) (a : IP) (ha : To4 n.IP = some a) (hml : n.Mask.length = 4) :
    copy (make IPv4len) ((IPMaskApply n.IP n.Mask).getD []) = andBytes a n.Mask := by
  have hal := To4_length _ _ ha
  rw [IPMaskApply_of_To4 _ _ _ ha hml, Option.getD_some]
  exact copy_eq _ _ (by rw [make_length, andBytes_length _ _ (by rw [hal, hml]), hal]; rfl)

theorem first_v6 (n : IPNet) (hl : n.IP.length = 16) (hml : n.Mask.length = 16) :
    copy (make IPv6len) ((IPMaskApply n.IP n.Mask).getD []) = andBytes n.IP n.Mask := by
  rw [IPMaskApply_of_length16 _ _ hl hml, Option.getD_some]
  exact copy_eq _ _ (by rw [make_length, andBytes_length _ _ (by rw [hl, hml]), hl]; rfl)

theorem IsValid4IP_iff (ip : IP) : IsValid4IP ip = true ↔ ∃ a, To4 ip = some a := by
  simp [IsValid4IP, Option.isSome_iff_exists]

theorem IsValid4IP_false_iff (ip : IP) : IsValid4IP ip = false ↔ To4 ip = none := by
  simp [IsValid4IP]

theorem IsValid6IP_iff (ip : IP) : IsValid6IP ip = true ↔ (ip.length = 4 ∨ ip.length = 16) := by
  unfold IsValid6IP To16
  simp only [IPv4len, IPv6len]
  split
  · simp [*]
  · split
    · simp [*]
    · simp [*]

theorem length16_of_v6 (ip : IP) (h4 : IsValid4IP ip = false) (h6 : IsValid6IP ip = true) :
    ip.length = 16 := by
  rcases (IsValid6IP_iff ip).1 h6 with h | h
  · have := To4_of_length4 ip h
    rw [(IsValid4IP_false_iff ip).1 h4] at this
    simp at this
  · exact h

/-- A result of `GetList4` is one of the two error results, or a result without
error whose `first` is the address ANDed with the mask. -/
theorem GetList4_cases (fuel : Nat) (n : IPNet) (r : GetListResult) (h : GetList4 fuel n = some r) :
    (IsValid4IP n.IP = false ∧ r = ⟨none, none, none, some (.invalidIPv4Address n.IP)⟩)
    ∨ (IsValid4IP n.IP = true ∧ n.Mask.length ≠ 4
        ∧ r = ⟨none, none, none, some (.invalidIPv4Mask n.Mask)⟩)
    ∨ (n.Mask.length = 4 ∧ r.err = none
        ∧ ∃ a, To4 n.IP = some a ∧ r.first = some (andBytes a n.Mask)) := by
  unfold GetList4 at h
  split at h
  · rename_i hv
    left
    exact ⟨hv, (Option.some.inj h).symm⟩
  · rename_i hv
    have hv1 : IsValid4IP n.IP = true := by simpa using hv
    obtain ⟨a, ha⟩ := (IsValid4IP_iff _).1 hv1
    split at h
    · rename_i hml
      right; left
      exact ⟨hv1, hml, (Option.some.inj h).symm⟩
    · rename_i hml
      have hml1 : n.Mask.length = 4 := by simpa [IPv4len] using hml
      right; right
      refine ⟨hml1, ?_⟩
      simp only [first_v4 n a ha hml1] at h
      split at h
      · rw [← Option.some.inj h]
        exact ⟨rfl, a, ha, rfl⟩
      · split at h
        · simp at h
        · split at h
          · rw [← Option.some.inj h]
            exact ⟨rfl, a, ha, rfl⟩
          · rw [← Option.some.inj h]
            exact ⟨rfl, a, ha, rfl⟩

/-- A result of `GetList6` on an address that is not an IPv4 address is one of
the two error results, or a result without error whose `first` is the address
ANDed with the mask. -/
theorem GetList6_cases (fuel : Nat) (n : IPNet) (r : GetListResult) (h : GetList6 fuel n = some r)
    (h4 : IsValid4IP n.IP = false) :
    (IsValid6IP n.IP = false ∧ r = ⟨none, none, none, some (.invalidIPv6Address n.IP)⟩)
    ∨ (IsValid6IP n.IP = true ∧ n.Mask.length ≠ 16
        ∧ r = ⟨none, none, none, some (.invalidIPv6Mask n.Mask)⟩)
    ∨ (IsValid6IP n.IP = true ∧ n.IP.length = 16 ∧ n.Mask.length = 16 ∧ r.err = none
        ∧ r.first = some (andBytes n.IP n.Mask)) := by
  unfold GetList6 at h
  split at h
  · rename_i hv
    left
    exact ⟨hv, (Option.some.inj h).symm⟩
  · rename_i hv
    have hv1 : IsValid6IP n.IP = true := by simpa using hv
    have hl := length16_of_v6 _ h4 hv1
    split at h
    · rename_i hml
      right; left
      exact ⟨hv1, hml, (Option.some.inj h).symm⟩
    · rename_i hml
      have hml1 : n.Mask.length = 16 := by simpa [IPv6len] using hml
      right; right
      refine ⟨hv1, hl, hml1, ?_⟩
      simp only [first_v6 n hl hml1] at h
      split at h
      · rw [← Option.some.inj h]
        exact ⟨rfl, rfl⟩
      · split at h
        · simp at h
        · split at h
          · rw [← Option.some.inj h]
            exact ⟨rfl, rfl⟩
          · rw [← Option.some.inj h]
            exact ⟨rfl, rfl⟩

theorem Byte.and_ff (x : Byte) : Byte.and x 0xff = x := by
  apply Fin.ext
  simp only [Byte.and]
  exact Nat.and_pow_two_sub_one_of_lt_two_pow (n := 8) x.isLt

theorem andBytes_Mask32 (a : IP) (h : a.length = 4) : andBytes a Mask32 = a := by
  obtain ⟨a0, a1, a2, a3, rfl⟩ := length4 a h
  simp [andBytes, Mask32, Byte.and_ff]

theorem andBytes_Mask128 (a : IP) (h : a.length = 16) : andBytes a Mask128 = a := by
  obtain ⟨a0, a1, a2, a3, a4, a5, a6, a7, a8, a9, a10, a11, a12, a13, a14, a15, rfl⟩ :=
    length16 a h
  simp [andBytes, Mask128, Byte.and_ff]

theorem bigEndian_replicate_ff (k : Nat) :
    bigEndian (List.replicate k (0xff : Byte)) + 1 = 256 ^ k := by
  induction k with
  | zero => rfl
  | succ k ih =>
    have e : ((0xff : Byte) : Nat) = 255 := rfl
    simp only [List.replicate_succ, bigEndian, List.length_replicate, e, pow_succ]
    omega

theorem bigEndian_replicate_zero (k : Nat) : bigEndian (List.replicate k (0 : Byte)) = 0 := by
  induction k with
  | zero => rfl
  | succ k ih => simp [List.replicate_succ, bigEndian, ih]

/-! ### The reserved tables -/

theorem Contains_To4 (n : IPNet) (ip a : IP) (ha : To4 ip = some a) :
    Contains n ip = Contains n a := by
  have h4 := To4_of_length4 a (To4_length _ _ ha)
  simp only [Contains, ha, h4]

theorem ReservedIPv4_shape :
    ∀ n ∈ ReservedIPv4, (To4 n.IP).isSome = true ∧ n.Mask.length = 4 := by
  decide

theorem Byte.and_zero (x : Byte) : Byte.and x 0 = 0 := by
  apply Fin.ext
  simp [Byte.and]

theorem IPv4_eq (a b c d : Byte) :
    IPv4 a b c d = [0, 0, 0, 0, 0, 0, 0, 0, 0, 0, 0xff, 0xff, a, b, c, d] := rfl

theorem To4_IPv4 (a b c d : Byte) : To4 (IPv4 a b c d) = some [a, b, c, d] := rfl

/-- The entry `::ffff:0:0/96` of `ReservedIPv6` contains every address that has
a 4-byte form. -/
theorem Contains_mapped_entry (ip : IP) (a : IP) (ha : To4 ip = some a) :
    Contains { IP := [0, 0, 0, 0, 0, 0, 0, 0, 0, 0, 255, 255, 0, 0, 0, 0]
               Mask := [255, 255, 255, 255, 255, 255, 255, 255, 255, 255, 255, 255, 0, 0, 0, 0] }
      ip = true := by
  rw [Contains_To4 _ ip a ha]
  obtain ⟨a0, a1, a2, a3, rfl⟩ := length4 a (To4_length _ _ ha)
  have hnm : networkNumberAndMask
      { IP := [0, 0, 0, 0, 0, 0, 0, 0, 0, 0, 255, 255, 0, 0, 0, 0]
        Mask := [255, 255, 255, 255, 255, 255, 255, 255, 255, 255, 255, 255, 0, 0, 0, 0] }
      = ([0, 0, 0, 0], [0, 0, 0, 0]) := by decide
  have h4 : To4 [a0, a1, a2, a3] = some [a0, a1, a2, a3] := To4_of_length4 _ rfl
  simp [Contains, hnm, h4, containsLoop, Byte.and_zero]

/-- `IsReserved6`, and with it `IsReserved`, is true for every address that has
a 4-byte form. -/
theorem IsReserved_of_To4 (ip a : IP) (ha : To4 ip = some a) :
    IsReserved6 ip = true ∧ IsReserved ip = true := by
  have h6 : IsReserved6 ip = true := by
    simp only [IsReserved6, List.any_eq_true]
    exact ⟨_, by decide, Contains_mapped_entry ip a ha⟩
  exact ⟨h6, by simp [IsReserved, h6]⟩

/-- Every address returned by `GetPublic4` is reported as reserved by
`IsReserved`. -/
theorem GetPublic4_IsReserved (rnd : Nat → Byte) : ∀ (fuel pos : Nat) (ip : IP),
    GetPublic4 fuel rnd pos = some ip → IsReserved4 ip = false ∧ IsReserved ip = true := by
  intro fuel
  induction fuel with
  | zero => intro pos ip h; simp [GetPublic4] at h
  | succ f ih =>
    intro pos ip h
    simp only [GetPublic4] at h
    split at h
    · rename_i h4
      have e := Option.some.inj h
      subst e
      exact ⟨h4, (IsReserved_of_To4 _ _ (To4_IPv4 _ _ _ _)).2⟩
    · exact ih _ _ h

theorem andBytes_zero4 (a : IP) (h : a.length = 4) : andBytes a [0, 0, 0, 0] = [0, 0, 0, 0] := by
  obtain ⟨a0, a1, a2, a3, rfl⟩ := length4 a h
  simp [andBytes, Byte.and_zero]

/-- With the all-zero 4-byte mask the scan of `GetList4` never ends. -/
theorem GetList4_zero_mask_none (n : IPNet) (a : IP) (fuel : Nat) (ha : To4 n.IP = some a)
    (hm : n.Mask = [0, 0, 0, 0]) : GetList4 fuel n = none := by
  have hal := To4_length _ _ ha
  have hml : n.Mask.length = 4 := by rw [hm]; rfl
  have hv : IsValid4IP n.IP = true := by simp [IsValid4IP, ha]
  have h32 : n.Mask ≠ Mask32 := by rw [hm]; decide
  have hfirst := first_v4 n a ha hml
  have hall : ∀ ip : IP, ip.length = 4 → Contains n ip = true := by
    intro ip hip
    rw [Contains_v4 n a ip ha hml hip, hm, andBytes_zero4 a hal, andBytes_zero4 ip hip]
  have hscan : ∀ x last : IP, x.length = 4 → scanLast n fuel x last = none := by
    intro x last hx
    apply scanLast_none
    intro i _
    exact hall _ (by rw [iterate_Increase_length, hx])
  have hfl : (andBytes a n.Mask).length = 4 := by
    rw [andBytes_length _ _ (by rw [hal, hml]), hal]
  simp only [GetList4, hv, Bool.true_eq_false, if_false, hml, IPv4len, ne_eq, not_true_eq_false]
  simp only [IPv4len] at hfirst
  rw [hfirst, if_neg h32, copy_eq _ _ (by rw [make_length, hfl]),
    hscan _ _ (by rw [Increase_length, hfl])]

/-! ### Masks that need not be prefix masks -/

/-- ORing a value masked by `m` with the complement of `m` adds the two. -/
theorem and_or_compl_eq_add (w : Nat) : ∀ x m : Nat, m < 2 ^ w →
    (x &&& m) ||| (2 ^ w - 1 - m) = (x &&& m) + (2 ^ w - 1 - m) := by
  induction w with
  | zero =>
    intro x m hm
    have : m = 0 := by simpa using hm
    subst this
    simp
  | succ w ih =>
    intro x m hm
    have hp : 2 ^ (w + 1) = 2 * 2 ^ w := by rw [pow_succ]; ring
    have hm2 : m / 2 < 2 ^ w := by omega
    have ih1 := ih (x / 2) (m / 2) hm2
    have hand : (x &&& m) / 2 = x / 2 &&& m / 2 := Nat.and_div_two
    have hmod : (x &&& m) % 2 = 1 ↔ x % 2 = 1 ∧ m % 2 = 1 := Nat.and_mod_two_eq_one
    obtain ⟨a, ha⟩ : ∃ a, a = x &&& m := ⟨_, rfl⟩
    rw [← ha] at hand hmod ⊢
    obtain ⟨a1, ha1⟩ : ∃ a1, a1 = x / 2 &&& m / 2 := ⟨_, rfl⟩
    rw [← ha1] at hand ih1
    have hadec : a = 2 ^ 1 * a1 + a % 2 := by rw [Nat.pow_one]; omega
    have hbdec : 2 ^ (w + 1) - 1 - m = 2 ^ 1 * (2 ^ w - 1 - m / 2) + (1 - m % 2) := by
      rw [hp, Nat.pow_one]; omega
    have hlow : a % 2 ||| (1 - m % 2) = a % 2 + (1 - m % 2) := by
      rcases Nat.mod_two_eq_zero_or_one m with h0 | h1
      · have : a % 2 = 0 := by
          rcases Nat.mod_two_eq_zero_or_one a with h | h
          · exact h
          · have := (hmod.1 h).2
            omega
        rw [this, h0]
        simp
      · rw [h1]
        simp
    calc a ||| (2 ^ (w + 1) - 1 - m)
        = (2 ^ 1 * a1 + a % 2) ||| (2 ^ 1 * (2 ^ w - 1 - m / 2) + (1 - m % 2)) := by
          rw [← hadec, ← hbdec]
      _ = 2 ^ 1 * (a1 ||| (2 ^ w - 1 - m / 2)) + (a % 2 ||| (1 - m % 2)) :=
          or_block 1 _ _ _ _ (by omega) (by omega)
      _ = 2 ^ 1 * (a1 + (2 ^ w - 1 - m / 2)) + (a % 2 + (1 - m % 2)) := by rw [ih1, hlow]
      _ = a + (2 ^ (w + 1) - 1 - m) := by
          rw [hp, Nat.pow_one]; omega

theorem trailingZerosAux_spec : ∀ (w m : Nat), m ≠ 0 → m < 2 ^ w →
    trailingZerosAux w m < w ∧ ∃ q, m = 2 ^ trailingZerosAux w m * q ∧ q % 2 = 1 := by
  intro w
  induction w with
  | zero =>
    intro m h0 hm
    exfalso
    have : m = 0 := by simpa using hm
    exact h0 this
  | succ w ih =>
    intro m h0 hm
    simp only [trailingZerosAux]
    split
    · rename_i hodd
      exact ⟨by omega, m, by simp, hodd⟩
    · rename_i heven
      have hp : 2 ^ (w + 1) = 2 * 2 ^ w := by rw [pow_succ]; ring
      obtain ⟨hlt, q, hq, hodd⟩ := ih (m / 2) (by omega) (by omega)
      refine ⟨by omega, q, ?_, hodd⟩
      have hm2 : m = 2 * (m / 2) := by omega
      conv_lhs => rw [hm2, hq]
      rw [pow_succ]
      ring

theorem trailingZerosAux_eq : ∀ (h w q : Nat), h < w → q % 2 = 1 →
    trailingZerosAux w (2 ^ h * q) = h := by
  intro h
  induction h with
  | zero =>
    intro w q hw hq
    obtain ⟨w, rfl⟩ : ∃ v, w = v + 1 := ⟨w - 1, by omega⟩
    simp [trailingZerosAux, hq]
  | succ h ih =>
    intro w q hw hq
    obtain ⟨w, rfl⟩ : ∃ v, w = v + 1 := ⟨w - 1, by omega⟩
    have e : 2 ^ (h + 1) * q = 2 * (2 ^ h * q) := by rw [pow_succ]; ring
    have hmod : (2 ^ (h + 1) * q) % 2 ≠ 1 := by rw [e]; omega
    have hdiv : (2 ^ (h + 1) * q) / 2 = 2 ^ h * q := by rw [e]; omega
    simp only [trailingZerosAux, hmod, if_false, hdiv]
    rw [ih w q (by omega) hq]

/-- ANDing with a mask whose low `t` bits are zero ignores the low `t` bits. -/
theorem and_low_zero (t f q k : Nat) (hk : k < 2 ^ t) :
    (2 ^ t * f + k) &&& (2 ^ t * q) = 2 ^ t * (f &&& q) := by
  have hpos : 0 < 2 ^ t := Nat.pos_of_ne_zero (by positivity)
  have := and_block t f k q 0 hk hpos
  simpa using this

/-- Containment of a 4-byte address in an IPv4 network with a 4-byte mask, as an
equation between masked values. -/
theorem Contains_v4_value (n : IPNet) (a ip : IP) (ha : To4 n.IP = some a)
    (hml : n.Mask.length = 4) (hip : ip.length = 4) :
    Contains n ip = true
      ↔ bigEndian a &&& bigEndian n.Mask = bigEndian ip &&& bigEndian n.Mask := by
  have hal := To4_length _ _ ha
  rw [Contains_v4 n a ip ha hml hip, ← bigEndian_andBytes _ _ (by rw [hal, hml]),
    ← bigEndian_andBytes _ _ (by rw [hip, hml])]
  constructor
  · intro h; rw [h]
  · intro h
    exact bigEndian_inj _ _ (by
      rw [andBytes_length _ _ (by rw [hal, hml]), andBytes_length _ _ (by rw [hip, hml]),
        hal, hip]) h

/-- The mask value splits as `2 ^ t * q` with `q` odd, `t` its number of trailing
zero bits, and the network address as `2 ^ t * f` with `f AND q = f`. -/
theorem mask_decomp (a m : IP) (hal : a.length = 4) (hml : m.length = 4)
    (h0 : bigEndian m ≠ 0) :
    ∃ q f, trailingZeros (bigEndian m) < 32 ∧ q % 2 = 1
      ∧ bigEndian m = 2 ^ trailingZeros (bigEndian m) * q
      ∧ bigEndian (andBytes a m) = 2 ^ trailingZeros (bigEndian m) * f
      ∧ f &&& q = f ∧ f < 2 ^ (32 - trailingZeros (bigEndian m)) := by
  have e2 : (256 : Nat) ^ 4 = 2 ^ 32 := by norm_num
  have hM := bigEndian_lt m
  have hA := bigEndian_lt a
  rw [hml, e2] at hM
  rw [hal, e2] at hA
  obtain ⟨ht, q, hq, hodd⟩ := trailingZerosAux_spec 32 (bigEndian m) h0 hM
  obtain ⟨t, htdef⟩ : ∃ t, t = trailingZeros (bigEndian m) := ⟨_, rfl⟩
  have htdef2 : trailingZerosAux 32 (bigEndian m) = t := by rw [htdef]; rfl
  rw [htdef2] at ht hq
  rw [← htdef]
  have hpos : 0 < 2 ^ t := Nat.pos_of_ne_zero (by positivity)
  refine ⟨q, bigEndian a / 2 ^ t &&& q, ht, hodd, hq, ?_, ?_, ?_⟩
  · rw [bigEndian_andBytes _ _ (by rw [hal, hml]), hq]
    conv_lhs => rw [← Nat.div_add_mod (bigEndian a) (2 ^ t)]
    exact and_low_zero t _ q _ (Nat.mod_lt _ hpos)
  · rw [Nat.and_assoc, Nat.and_self]
  · apply lt_of_le_of_lt Nat.and_le_left
    rw [Nat.div_lt_iff_lt_mul hpos, ← pow_add]
    have : 32 - t + t = 32 := by omega
    rwa [this]

theorem masked_step_inside (t f q i : Nat) (ht : t ≤ 32) (hfq : f &&& q = f)
    (hf : f < 2 ^ (32 - t)) (hi : i < 2 ^ t) :
    (2 ^ t * f + i) % 2 ^ 32 &&& (2 ^ t * q) = 2 ^ t * f := by
  rw [(block_inside f t 32 i ht hf hi).1, and_low_zero t f q i hi, hfq]

theorem masked_step_after (t f q : Nat) (ht : t < 32) (hq : q % 2 = 1) :
    (2 ^ t * f + 2 ^ t) % 2 ^ 32 &&& (2 ^ t * q) ≠ 2 ^ t * f := by
  have hpos : 0 < 2 ^ t := Nat.pos_of_ne_zero (by positivity)
  have hw : (2 : Nat) ^ 32 = 2 ^ t * 2 ^ (32 - t) := by
    rw [← pow_add]; congr 1; omega
  have e : 2 ^ t * f + 2 ^ t = 2 ^ t * (f + 1) := by rw [Nat.mul_add, Nat.mul_one]
  rw [e, hw, Nat.mul_mod_mul_left]
  have h0 := and_low_zero t ((f + 1) % 2 ^ (32 - t)) q 0 hpos
  rw [Nat.add_zero] at h0
  rw [h0]
  intro heq
  have heq2 := Nat.eq_of_mul_eq_mul_left hpos heq
  have hdvd : 2 ∣ 2 ^ (32 - t) := dvd_pow_self 2 (by omega)
  have hpar : (f + 1) % 2 ^ (32 - t) % 2 = (f + 1) % 2 := Nat.mod_mod_of_dvd _ hdvd
  have hmod : ((f + 1) % 2 ^ (32 - t) &&& q) % 2 = 1
      ↔ (f + 1) % 2 ^ (32 - t) % 2 = 1 ∧ q % 2 = 1 := Nat.and_mod_two_eq_one
  rw [heq2, hpar] at hmod
  rcases Nat.mod_two_eq_zero_or_one f with h | h
  · have := hmod.2 ⟨by omega, hq⟩
    omega
  · have := (hmod.1 h).1
    omega

/-- The result of `GetList4` on a valid IPv4 network with any 4-byte mask other
than the all-zero mask and `/32`: the scan sets the `t` bits below the lowest
set bit of the mask, so `last` is `2 ^ t - 1` steps after `first`. -/
theorem GetList4_anymask (n : IPNet) (a : IP) (fuel : Nat) (ha : To4 n.IP = some a)
    (hml : n.Mask.length = 4) (h0 : bigEndian n.Mask ≠ 0) (h32 : n.Mask ≠ Mask32)
    (hf : 2 ^ trailingZeros (bigEndian n.Mask) ≤ fuel) :
    GetList4 fuel n = some
        { first := some (andBytes a n.Mask)
          last := some (Increase^[2 ^ trailingZeros (bigEndian n.Mask) - 1] (andBytes a n.Mask))
          usable := if n.Mask = Mask31 then none else some
            { ip := andBytes a n.Mask
              last := Increase^[2 ^ trailingZeros (bigEndian n.Mask) - 1] (andBytes a n.Mask) }
          err := none }
      ∧ ∀ i, i < 2 ^ trailingZeros (bigEndian n.Mask) →
          bigEndian (Increase^[i] (andBytes a n.Mask)) = bigEndian (andBytes a n.Mask) + i
            ∧ Contains n (Increase^[i] (andBytes a n.Mask)) = true := by
  have hal := To4_length _ _ ha
  have hfl : (andBytes a n.Mask).length = 4 := by
    rw [andBytes_length _ _ (by rw [hal, hml]), hal]
  have e2 : (256 : Nat) ^ 4 = 2 ^ 32 := by norm_num
  obtain ⟨q, f, ht, hodd, hM, hF, hfq, hflt⟩ := mask_decomp a n.Mask hal hml h0
  obtain ⟨t, htdef⟩ : ∃ t, t = trailingZeros (bigEndian n.Mask) := ⟨_, rfl⟩
  rw [← htdef] at ht hM hF hflt hf ⊢
  have hpos : 0 < 2 ^ t := Nat.pos_of_ne_zero (by positivity)
  have hAM : bigEndian a &&& bigEndian n.Mask = 2 ^ t * f := by
    rw [← bigEndian_andBytes _ _ (by rw [hal, hml]), hF]
  have hcont : ∀ i, Contains n (Increase^[i] (andBytes a n.Mask)) = true
      ↔ (2 ^ t * f + i) % 2 ^ 32 &&& (2 ^ t * q) = 2 ^ t * f := by
    intro i
    rw [Contains_v4_value n a _ ha hml (by rw [iterate_Increase_length, hfl]), hAM,
      bigEndian_iterate_Increase, hfl, hF, e2, hM]
    exact eq_comm
  have hin : ∀ i, i < 2 ^ t → Contains n (Increase^[i] (andBytes a n.Mask)) = true := by
    intro i hi
    rw [hcont]
    exact masked_step_inside t f q i (by omega) hfq hflt hi
  constructor
  · rw [GetList4_scan n a (2 ^ t - 1) fuel ha hml h32 (by omega)]
    · intro i _ hi
      exact hin i (by omega)
    · have e : 2 ^ t - 1 + 1 = 2 ^ t := by omega
      rw [e, Bool.eq_false_iff, ne_eq, hcont]
      exact masked_step_after t f q ht hodd
  · intro i hi
    refine ⟨?_, hin i hi⟩
    rw [bigEndian_iterate_Increase, hfl, hF, e2]
    exact (block_inside f t 32 i (by omega) hflt hi).1

/-- The usable sequence of `GetList4` for any accepted 4-byte mask whose lowest
bit is clear (other than `/31`): the addresses strictly between `first` and
`last`, in order, each contained in the network. -/
theorem GetList4_anymask_usable (n : IPNet) (a : IP) (fuel fuel2 : Nat) (ha : To4 n.IP = some a)
    (hml : n.Mask.length = 4) (h0 : bigEndian n.Mask ≠ 0) (heven : bigEndian n.Mask % 2 = 0)
    (h31 : n.Mask ≠ Mask31) (hf : 2 ^ trailingZeros (bigEndian n.Mask) ≤ fuel)
    (hf2 : 2 ^ trailingZeros (bigEndian n.Mask) - 1 ≤ fuel2) :
    ∃ last ch us,
      GetList4 fuel n = some
        { first := some (andBytes a n.Mask), last := some last, usable := some ch, err := none }
      ∧ bigEndian last
          = bigEndian (andBytes a n.Mask) + (2 ^ trailingZeros (bigEndian n.Mask) - 1)
      ∧ Chan.drain fuel2 ch = some us
      ∧ us = (List.range (2 ^ trailingZeros (bigEndian n.Mask) - 2)).map
          (fun i => Increase^[i + 1] (andBytes a n.Mask))
      ∧ us.map bigEndian = (List.range (2 ^ trailingZeros (bigEndian n.Mask) - 2)).map
          (fun i => bigEndian (andBytes a n.Mask) + 1 + i)
      ∧ ∀ x ∈ us, Contains n x = true := by
  have h32 : n.Mask ≠ Mask32 := by
    intro h
    rw [h, bigEndian_Mask32] at heven
    omega
  obtain ⟨hres, hsteps⟩ := GetList4_anymask n a fuel ha hml h0 h32 hf
  have ht1 : 1 ≤ trailingZeros (bigEndian n.Mask) := by
    have hne : ¬ bigEndian n.Mask % 2 = 1 := by omega
    simp only [trailingZeros, trailingZerosAux, hne, if_false]
    omega
  obtain ⟨t, htdef⟩ : ∃ t, t = trailingZeros (bigEndian n.Mask) := ⟨_, rfl⟩
  rw [← htdef] at hres hsteps ht1 hf hf2 ⊢
  have h2 : 2 ^ 1 ≤ 2 ^ t := Nat.pow_le_pow_right (by decide) ht1
  rw [if_neg h31] at hres
  have hdrain : Chan.drain fuel2
      { ip := andBytes a n.Mask, last := Increase^[2 ^ t - 1] (andBytes a n.Mask) }
      = some ((List.range (2 ^ t - 2)).map (fun i => Increase^[i + 1] (andBytes a n.Mask))) := by
    unfold Chan.drain
    rw [drainAux_eq _ (2 ^ t - 2) fuel2 _ [] (by omega)]
    · simp
    · intro i hi1 hi2
      rw [IPEqual_of_length_eq _ _ (by rw [iterate_Increase_length, iterate_Increase_length])]
      apply decide_eq_false
      intro heq
      have := congrArg bigEndian heq
      rw [(hsteps i (by omega)).1, (hsteps _ (by omega)).1] at this
      omega
    · have e : 2 ^ t - 2 + 1 = 2 ^ t - 1 := by omega
      rw [e, IPEqual_of_length_eq _ _ rfl]
      simp
  refine ⟨_, _, _, hres, (hsteps _ (by omega)).1, hdrain, rfl, ?_, ?_⟩
  · rw [List.map_map]
    apply List.map_congr_left
    intro i hi
    rw [List.mem_range] at hi
    simp only [Function.comp_apply]
    rw [(hsteps (i + 1) (by omega)).1]
    omega
  · intro x hx
    rw [List.mem_map] at hx
    obtain ⟨i, hi, rfl⟩ := hx
    rw [List.mem_range] at hi
    exact (hsteps (i + 1) (by omega)).2

/-- A text is valid exactly when `ParseIP` turns it into an address of 4 or 16
bytes. -/
theorem IsValid_str_iff (ParseIP : String → Option IP) (t : String) :
    IsValid ParseIP (IPTypes.str t) = true
      ↔ ∃ ip, ParseIP t = some ip ∧ (ip.length = 4 ∨ ip.length = 16) := by
  simp only [IsValid, IsValid4, IsValid6, Bool.or_eq_true]
  cases h : ParseIP t with
  | none => simp
  | some ip =>
    have h6 : (To16 ip).isSome = true ↔ (ip.length = 4 ∨ ip.length = 16) := IsValid6IP_iff ip
    have h4 : (To4 ip).isSome = true → (ip.length = 4 ∨ ip.length = 16) := by
      intro hs
      obtain ⟨a, ha⟩ := Option.isSome_iff_exists.1 hs
      rcases To4_cases ip a ha with ⟨h4, _⟩ | ⟨h16, _⟩
      · exact Or.inl h4
      · exact Or.inr h16
    constructor
    · rintro (hs | hs)
      · exact ⟨ip, rfl, h4 hs⟩
      · exact ⟨ip, rfl, h6.1 hs⟩
    · rintro ⟨ip2, he, hl⟩
      have : ip = ip2 := Option.some.inj he
      subst this
      exact Or.inr (h6.2 hl)

/-! ## The claims -/

/-- C1: on a valid IPv4 network whose mask is the 4-byte prefix mask of length
`p`, `1 ≤ p ≤ 31`, `GetList4` returns (as soon as the fuel covers the
`2 ^ (32 - p)` steps of the scan) without an error, with `first` the address
ANDed with the mask and `last = first OR (NOT mask)`; both are contained in the
network. -/
theorem GetList4_last_eq_first_or_not_mask (n : IPNet) (p fuel : Nat)
    (hv : IsValid4IP n.IP = true) (hm : CIDRMask p 32 = some n.Mask)
    (hp1 : 1 ≤ p) (hp31 : p ≤ 31) (hf : 2 ^ (32 - p) ≤ fuel) :
    ∃ a first last, To4 n.IP = some a ∧ first = andBytes a n.Mask
      ∧ last = orNotBytes first n.Mask
      ∧ GetList4 fuel n = some
          { first := some first
            last := some last
            usable := if p = 31 then none else some { ip := first, last := last }
            err := none }
      ∧ Contains n first = true ∧ Contains n last = true := by
  obtain ⟨a, ha⟩ : ∃ a, To4 n.IP = some a := by
    simpa [IsValid4IP, Option.isSome_iff_exists] using hv
  obtain ⟨hmask, _⟩ := CIDRMask_32 p n.Mask hm
  have hal := To4_length _ _ ha
  have hq := quotient_lt a p hal (by omega)
  have hpos : 0 < 2 ^ (32 - p) := Nat.pos_of_ne_zero (by positivity)
  have hlast : Increase^[2 ^ (32 - p) - 1] (andBytes a n.Mask)
      = orNotBytes (andBytes a n.Mask) n.Mask := by
    rw [hmask]; exact iterate_eq_orNotBytes a p hal (by omega)
  refine ⟨a, andBytes a n.Mask, orNotBytes (andBytes a n.Mask) n.Mask, ha, rfl, rfl, ?_, ?_, ?_⟩
  · rw [← hlast]
    exact GetList4_cidr n a p fuel ha hmask hp1 hp31 hf
  · have := Contains_iterate_v4 n a p 0 ha hmask (by omega)
    rw [Function.iterate_zero, id_eq] at this
    rw [this, (block_inside _ (32 - p) 32 0 (by omega) hq hpos).1]
    exact (block_inside _ (32 - p) 32 0 (by omega) hq hpos).2
  · rw [← hlast, Contains_iterate_v4 n a p _ ha hmask (by omega),
      (block_inside _ (32 - p) 32 _ (by omega) hq (by omega)).1]
    exact (block_inside _ (32 - p) 32 _ (by omega) hq (by omega)).2

/-- C1, at the network 192.168.0.0/16: `first = 192.168.0.0` and
`last = 192.168.255.255`. -/
theorem GetList4_last_eq_first_or_not_mask_witness :
    IsValid4IP [192, 168, 0, 0] = true ∧ CIDRMask 16 32 = some [255, 255, 0, 0]
      ∧ GetList4 65536 { IP := [192, 168, 0, 0], Mask := [255, 255, 0, 0] } = some
          { first := some [192, 168, 0, 0]
            last := some [192, 168, 255, 255]
            usable := some { ip := [192, 168, 0, 0], last := [192, 168, 255, 255] }
            err := none } := by
  refine ⟨by decide, by decide, ?_⟩
  obtain ⟨a, first, last, ha, hfirst, hlast, hres, _, _⟩ :=
    GetList4_last_eq_first_or_not_mask { IP := [192, 168, 0, 0], Mask := [255, 255, 0, 0] }
      16 65536 (by decide) (by decide) (by decide) (by decide) (by norm_num)
  have ha0 : a = [192, 168, 0, 0] := by
    have : To4 [192, 168, 0, 0] = some [192, 168, 0, 0] := by decide
    rw [this] at ha
    exact (Option.some.inj ha).symm
  have hf0 : first = [192, 168, 0, 0] := by rw [hfirst, ha0]; decide
  have hl0 : last = [192, 168, 255, 255] := by rw [hlast, hf0]; decide
  rw [hres, hf0, hl0]
  rfl


/-- C2: on a valid IPv4 network whose mask is the 4-byte prefix mask of length
`p`, `1 ≤ p ≤ 30`, the channel returned by `GetList4` delivers exactly the
addresses `first + 1, ..., last - 1` in ascending order: `2 ^ (32 - p) - 2`
addresses, each contained in the network, none of them `first` or `last`. -/
theorem GetList4_usable_sequence (n : IPNet) (p fuel fuel2 : Nat)
    (hv : IsValid4IP n.IP = true) (hm : CIDRMask p 32 = some n.Mask)
    (hp1 : 1 ≤ p) (hp30 : p ≤ 30) (hf : 2 ^ (32 - p) ≤ fuel) (hf2 : 2 ^ (32 - p) - 1 ≤ fuel2) :
    ∃ first last ch us,
      GetList4 fuel n = some { first := some first, last := some last, usable := some ch, err := none }
      ∧ Chan.drain fuel2 ch = some us
      ∧ us.length = 2 ^ (32 - p) - 2
      ∧ us.map bigEndian = (List.range (2 ^ (32 - p) - 2)).map (fun i => bigEndian first + 1 + i)
      ∧ bigEndian last = bigEndian first + (2 ^ (32 - p) - 1)
      ∧ (∀ x ∈ us, x.length = 4 ∧ Contains n x = true)
      ∧ first ∉ us ∧ last ∉ us := by
  obtain ⟨a, ha⟩ : ∃ a, To4 n.IP = some a := by
    simpa [IsValid4IP, Option.isSome_iff_exists] using hv
  obtain ⟨hmask, _⟩ := CIDRMask_32 p n.Mask hm
  have hal := To4_length _ _ ha
  have hq := quotient_lt a p hal (by omega)
  have hpos : 0 < 2 ^ (32 - p) := Nat.pos_of_ne_zero (by positivity)
  have h4 : 2 ^ 2 ≤ 2 ^ (32 - p) := Nat.pow_le_pow_right (by decide) (by omega)
  have hml : n.Mask.length = 4 := by rw [hmask, CIDRMaskLoop_length]
  have hfl : (andBytes a n.Mask).length = 4 := by
    rw [andBytes_length _ _ (by rw [hal, hml]), hal]
  have hval : ∀ i, i < 2 ^ (32 - p) →
      bigEndian (Increase^[i] (andBytes a n.Mask)) = bigEndian (andBytes a n.Mask) + i := by
    intro i hi
    rw [hmask]
    exact bigEndian_iterate_v4 a p i hal (by omega) hi
  have hcont : ∀ i, i < 2 ^ (32 - p) → Contains n (Increase^[i] (andBytes a n.Mask)) = true := by
    intro i hi
    rw [Contains_iterate_v4 n a p i ha hmask (by omega),
      (block_inside _ (32 - p) 32 i (by omega) hq hi).1]
    exact (block_inside _ (32 - p) 32 i (by omega) hq hi).2
  have hres := GetList4_cidr n a p fuel ha hmask hp1 (by omega) hf
  rw [if_neg (by omega)] at hres
  have hdrain : Chan.drain fuel2
      { ip := andBytes a n.Mask, last := Increase^[2 ^ (32 - p) - 1] (andBytes a n.Mask) }
      = some ((List.range (2 ^ (32 - p) - 2)).map (fun i => Increase^[i + 1] (andBytes a n.Mask))) := by
    unfold Chan.drain
    rw [drainAux_eq _ (2 ^ (32 - p) - 2) fuel2 _ [] (by omega)]
    · simp
    · intro i hi1 hi2
      rw [IPEqual_of_length_eq _ _ (by rw [iterate_Increase_length, iterate_Increase_length])]
      apply decide_eq_false
      intro heq
      have := congrArg bigEndian heq
      rw [hval i (by omega), hval _ (by omega)] at this
      omega
    · have e : 2 ^ (32 - p) - 2 + 1 = 2 ^ (32 - p) - 1 := by omega
      rw [e, IPEqual_of_length_eq _ _ rfl]
      simp
  refine ⟨_, _, _, _, hres, hdrain, by simp, ?_, hval _ (by omega), ?_, ?_, ?_⟩
  · rw [List.map_map]
    apply List.map_congr_left
    intro i hi
    rw [List.mem_range] at hi
    simp only [Function.comp_apply]
    rw [hval (i + 1) (by omega)]
    omega
  · intro x hx
    rw [List.mem_map] at hx
    obtain ⟨i, hi, rfl⟩ := hx
    rw [List.mem_range] at hi
    exact ⟨by rw [iterate_Increase_length, hfl], hcont (i + 1) (by omega)⟩
  · intro hx
    rw [List.mem_map] at hx
    obtain ⟨i, hi, heq⟩ := hx
    rw [List.mem_range] at hi
    have := congrArg bigEndian heq
    rw [hval (i + 1) (by omega)] at this
    omega
  · intro hx
    rw [List.mem_map] at hx
    obtain ⟨i, hi, heq⟩ := hx
    rw [List.mem_range] at hi
    have := congrArg bigEndian heq
    rw [hval (i + 1) (by omega), hval _ (by omega)] at this
    omega

/-- C2, at the network 192.168.1.1/16 of the repository's test: 65534 usable
addresses. -/
theorem GetList4_usable_sequence_witness :
    IsValid4IP [192, 168, 1, 1] = true ∧ CIDRMask 16 32 = some [255, 255, 0, 0]
      ∧ ∃ first last ch us,
          GetList4 65536 { IP := [192, 168, 1, 1], Mask := [255, 255, 0, 0] }
            = some { first := some first, last := some last, usable := some ch, err := none }
          ∧ Chan.drain 65536 ch = some us ∧ us.length = 65534 := by
  refine ⟨by decide, by decide, ?_⟩
  obtain ⟨first, last, ch, us, hres, hdrain, hlen, _⟩ :=
    GetList4_usable_sequence { IP := [192, 168, 1, 1], Mask := [255, 255, 0, 0] }
      16 65536 65536 (by decide) (by decide) (by decide) (by decide) (by norm_num) (by norm_num)
  exact ⟨first, last, ch, us, hres, hdrain, by rw [hlen]; norm_num⟩


/-- C3: whenever `GetList` returns without error, `first` is the bytewise AND of
the address with the mask: of the 4-byte form of the address with a 4-byte mask
for an IPv4 network, of the 16-byte address with a 16-byte mask for an IPv6
network.  No condition is put on the mask, so `/32`, `/31`, `/128` and `/127`
are covered. -/
theorem GetList_first_eq_address_and_mask (fuel : Nat) (n : IPNet) (r : GetListResult)
    (h : GetList fuel n = some r) (he : r.err = none) :
    (∃ a, To4 n.IP = some a ∧ n.Mask.length = 4 ∧ r.first = some (andBytes a n.Mask))
    ∨ (To4 n.IP = none ∧ n.IP.length = 16 ∧ n.Mask.length = 16
        ∧ r.first = some (andBytes n.IP n.Mask)) := by
  unfold GetList at h
  split at h
  · left
    rcases GetList4_cases fuel n r h with ⟨_, hr⟩ | ⟨_, _, hr⟩ | ⟨hml, _, a, ha, hf⟩
    · rw [hr] at he; simp at he
    · rw [hr] at he; simp at he
    · exact ⟨a, ha, hml, hf⟩
  · rename_i hv4
    have hv4f : IsValid4IP n.IP = false := by simpa using hv4
    split at h
    · right
      rcases GetList6_cases fuel n r h hv4f with ⟨_, hr⟩ | ⟨_, _, hr⟩ | ⟨_, hl, hml, _, hf⟩
      · rw [hr] at he; simp at he
      · rw [hr] at he; simp at he
      · exact ⟨(IsValid4IP_false_iff _).1 hv4f, hl, hml, hf⟩
    · rw [← Option.some.inj h] at he
      simp at he

/-- C3, at the network 10.1.2.3/31: `first = 10.1.2.2`. -/
theorem GetList_first_eq_address_and_mask_witness :
    (∃ a, To4 [10, 1, 2, 3] = some a ∧ Mask31.length = 4
        ∧ some [10, 1, 2, 2] = some (andBytes a Mask31))
    ∨ (To4 [10, 1, 2, 3] = none ∧ ([10, 1, 2, 3] : IP).length = 16 ∧ Mask31.length = 16
        ∧ some [10, 1, 2, 2] = some (andBytes [10, 1, 2, 3] Mask31)) :=
  GetList_first_eq_address_and_mask 2 { IP := [10, 1, 2, 3], Mask := Mask31 }
    { first := some [10, 1, 2, 2], last := some [10, 1, 2, 3], usable := none, err := none }
    (by decide) rfl

/-- C5: with the maximal mask (`ff.ff.ff.ff` for an IPv4 address, sixteen `ff`
for an IPv6 address) `GetList` returns, whatever the fuel, `first` = the address
ANDed with the mask, which is the address itself (in 4-byte form for IPv4), and
`nil` for `last`, `usable` and the error. -/
theorem GetList_maximal_mask (fuel : Nat) (n : IPNet)
    (h : (IsValid4IP n.IP = true ∧ n.Mask = Mask32)
      ∨ (IsValid4IP n.IP = false ∧ IsValid6IP n.IP = true ∧ n.Mask = Mask128)) :
    ∃ addr, (To4 n.IP = some addr ∨ (To4 n.IP = none ∧ addr = n.IP))
      ∧ andBytes addr n.Mask = addr
      ∧ GetList fuel n = some { first := some addr, last := none, usable := none, err := none } := by
  rcases h with ⟨hv, hm⟩ | ⟨hv4, hv6, hm⟩
  · obtain ⟨a, ha⟩ := (IsValid4IP_iff _).1 hv
    have hal := To4_length _ _ ha
    have hml : n.Mask.length = 4 := by rw [hm]; rfl
    refine ⟨a, Or.inl ha, by rw [hm]; exact andBytes_Mask32 a hal, ?_⟩
    simp only [GetList, hv, if_true, GetList4, Bool.true_eq_false, if_false, hml, IPv4len, ne_eq,
      not_true_eq_false]
    have hf := first_v4 n a ha hml
    simp only [IPv4len] at hf
    rw [hf, if_pos hm, hm, andBytes_Mask32 a hal]
  · have hl := length16_of_v6 _ hv4 hv6
    have hml : n.Mask.length = 16 := by rw [hm]; rfl
    refine ⟨n.IP, Or.inr ⟨(IsValid4IP_false_iff _).1 hv4, rfl⟩,
      by rw [hm]; exact andBytes_Mask128 _ hl, ?_⟩
    simp only [GetList, hv4, Bool.false_eq_true, if_false, hv6, if_true, GetList6, hml, IPv6len,
      ne_eq, not_true_eq_false]
    have hf := first_v6 n hl hml
    simp only [IPv6len] at hf
    rw [hf, if_pos hm, hm, andBytes_Mask128 _ hl]
    simp

/-- C5, at 192.168.1.1/32 with no fuel at all. -/
theorem GetList_maximal_mask_witness :
    ∃ addr, (To4 [192, 168, 1, 1] = some addr ∨ (To4 [192, 168, 1, 1] = none ∧ addr = [192, 168, 1, 1]))
      ∧ andBytes addr Mask32 = addr
      ∧ GetList 0 { IP := [192, 168, 1, 1], Mask := Mask32 }
          = some { first := some addr, last := none, usable := none, err := none } :=
  GetList_maximal_mask 0 { IP := [192, 168, 1, 1], Mask := Mask32 } (Or.inl ⟨by decide, rfl⟩)

/-- C7: `GetList` returns an error exactly when the address is neither a valid
IPv4 nor a valid IPv6 address, or the mask is not 4 bytes long for an address
detected as IPv4, or not 16 bytes long for an address detected as IPv6; and a
result with an error has `nil` for `first`, `last` and `usable`. -/
theorem GetList_error_iff (fuel : Nat) (n : IPNet) :
    ((∃ r, GetList fuel n = some r ∧ r.err ≠ none)
      ↔ ((IsValid4IP n.IP = false ∧ IsValid6IP n.IP = false)
        ∨ (IsValid4IP n.IP = true ∧ n.Mask.length ≠ 4)
        ∨ (IsValid4IP n.IP = false ∧ IsValid6IP n.IP = true ∧ n.Mask.length ≠ 16)))
    ∧ (∀ r, GetList fuel n = some r → r.err ≠ none →
        r.first = none ∧ r.last = none ∧ r.usable = none) := by
  constructor
  · constructor
    · rintro ⟨r, h, he⟩
      unfold GetList at h
      split at h
      · rename_i hv4
        right; left
        rcases GetList4_cases fuel n r h with ⟨hv, _⟩ | ⟨_, hml, _⟩ | ⟨_, hn, _⟩
        · rw [hv4] at hv; simp at hv
        · exact ⟨hv4, hml⟩
        · exact absurd hn he
      · rename_i hv4
        have hv4f : IsValid4IP n.IP = false := by simpa using hv4
        split at h
        · rename_i hv6
          right; right
          rcases GetList6_cases fuel n r h hv4f with ⟨hv, _⟩ | ⟨_, hml, _⟩ | ⟨_, _, _, hn, _⟩
          · rw [hv6] at hv; simp at hv
          · exact ⟨hv4f, hv6, hml⟩
          · exact absurd hn he
        · rename_i hv6
          left
          exact ⟨hv4f, by simpa using hv6⟩
    · rintro (⟨hv4, hv6⟩ | ⟨hv4, hml⟩ | ⟨hv4, hv6, hml⟩)
      · exact ⟨⟨none, none, none, some (.invalidIPAddress n.IP)⟩, by simp [GetList, hv4, hv6], by simp⟩
      · exact ⟨⟨none, none, none, some (.invalidIPv4Mask n.Mask)⟩,
          by simp [GetList, GetList4, hv4, hml, IPv4len], by simp⟩
      · exact ⟨⟨none, none, none, some (.invalidIPv6Mask n.Mask)⟩,
          by simp [GetList, GetList6, hv4, hv6, hml, IPv6len], by simp⟩
  · intro r h he
    unfold GetList at h
    split at h
    · rcases GetList4_cases fuel n r h with ⟨_, hr⟩ | ⟨_, _, hr⟩ | ⟨_, hn, _⟩
      · rw [hr]; simp
      · rw [hr]; simp
      · exact absurd hn he
    · rename_i hv4
      have hv4f : IsValid4IP n.IP = false := by simpa using hv4
      split at h
      · rcases GetList6_cases fuel n r h hv4f with ⟨_, hr⟩ | ⟨_, _, hr⟩ | ⟨_, _, _, hn, _⟩
        · rw [hr]; simp
        · rw [hr]; simp
        · exact absurd hn he
      · rw [← Option.some.inj h]; simp


/-- C6: with the second-to-maximal mask (`/31` for an IPv4 address, `/127` for a
16-byte address that is not IPv4-mapped) `GetList` returns, once the fuel covers
the two steps of the scan, `usable = nil`, no error, `first` = the address ANDed
with the mask and `last` = the next address, `first + 1`, distinct from
`first`. -/
theorem GetList_second_to_maximal_mask (fuel : Nat) (n : IPNet) (hfuel : 2 ≤ fuel)
    (h : (IsValid4IP n.IP = true ∧ n.Mask = Mask31)
      ∨ (IsValid4IP n.IP = false ∧ IsValid6IP n.IP = true ∧ n.Mask = Mask127)) :
    ∃ addr first last, (To4 n.IP = some addr ∨ (To4 n.IP = none ∧ addr = n.IP))
      ∧ first = andBytes addr n.Mask ∧ last = Increase first
      ∧ bigEndian last = bigEndian first + 1 ∧ first ≠ last
      ∧ GetList fuel n
          = some { first := some first, last := some last, usable := none, err := none } := by
  rcases h with ⟨hv, hm⟩ | ⟨hv4, hv6, hm⟩
  · obtain ⟨a, ha⟩ := (IsValid4IP_iff _).1 hv
    have hal := To4_length _ _ ha
    have hmask : n.Mask = CIDRMaskLoop 4 31 := by rw [hm]; decide
    have hres := GetList4_cidr n a 31 fuel ha hmask (by omega) (by omega) (by simpa using hfuel)
    have hval := bigEndian_iterate_v4 a 31 1 hal (by omega) (by norm_num)
    rw [← hmask] at hval
    simp only [Function.iterate_succ, Function.iterate_zero, Function.comp_apply, id_eq] at hval
    refine ⟨a, _, _, Or.inl ha, rfl, rfl, hval, ?_, ?_⟩
    · intro heq
      rw [← heq] at hval
      omega
    · simpa [GetList, hv] using hres
  · have hl := length16_of_v6 _ hv4 hv6
    have h4 := (IsValid4IP_false_iff _).1 hv4
    have hmask : n.Mask = CIDRMaskLoop 16 127 := by rw [hm]; decide
    have hml : n.Mask.length = 16 := by rw [hm]; rfl
    have hfl : (andBytes n.IP n.Mask).length = 16 := by
      rw [andBytes_length _ _ (by rw [hl, hml]), hl]
    have hA := bigEndian_lt n.IP
    rw [hl] at hA
    have e2 : (256 : Nat) ^ 16 = 340282366920938463463374607431768211456 := by norm_num
    rw [e2] at hA
    have hnm := (To4_eq_none_iff_value _ hl).1 h4
    have e32 : (2 : Nat) ^ 32 = 4294967296 := by norm_num
    rw [e32] at hnm
    have hres := GetList6_scan n 1 fuel hl hml (by rw [hm]; decide) (by omega)
      (by
        intro i hi1 hi2
        have : i = 1 := by omega
        subst this
        rw [Contains_iterate_v6 n 127 1 h4 hl hmask (by omega)]
        norm_num
        omega)
      (by
        rw [Bool.eq_false_iff, ne_eq, Contains_iterate_v6 n 127 2 h4 hl hmask (by omega)]
        norm_num
        omega)
    have hval : bigEndian (Increase (andBytes n.IP n.Mask)) = bigEndian (andBytes n.IP n.Mask) + 1 := by
      rw [bigEndian_Increase, hfl, hmask, bigEndian_andBytes_cidr 16 127 _ (by omega) hl]
      norm_num
      omega
    refine ⟨n.IP, _, _, Or.inr ⟨h4, rfl⟩, rfl, rfl, hval, ?_, ?_⟩
    · intro heq
      rw [← heq] at hval
      omega
    · simpa [GetList, hv4, hv6, hm] using hres

/-- C6, at the network 10.1.2.3/31: `first = 10.1.2.2`, `last = 10.1.2.3`. -/
theorem GetList_second_to_maximal_mask_witness :
    IsValid4IP [10, 1, 2, 3] = true
      ∧ GetList 2 { IP := [10, 1, 2, 3], Mask := Mask31 }
          = some { first := some [10, 1, 2, 2], last := some [10, 1, 2, 3], usable := none, err := none } := by
  refine ⟨by decide, ?_⟩
  obtain ⟨addr, first, last, haddr, hfirst, hlast, _, _, hres⟩ :=
    GetList_second_to_maximal_mask 2 { IP := [10, 1, 2, 3], Mask := Mask31 } (le_refl _)
      (Or.inl ⟨by decide, rfl⟩)
  have ha0 : addr = [10, 1, 2, 3] := by
    have h4 : To4 [10, 1, 2, 3] = some [10, 1, 2, 3] := by decide
    rcases haddr with h | ⟨_, h⟩
    · rw [h4] at h
      exact (Option.some.inj h).symm
    · exact h
  have hf0 : first = [10, 1, 2, 2] := by rw [hfirst, ha0]; decide
  have hl0 : last = [10, 1, 2, 3] := by rw [hlast, hf0]; decide
  rw [hres, hf0, hl0]

/-- C8: `k` applications of `Increase` keep the length of the byte sequence and
turn its big-endian value `v` into `(v + k) mod 256 ^ len`; in particular the
sequence of all `0xff` becomes all zeros without an error. -/
theorem Increase_iterate_value (ip : IP) (k : Nat) :
    (Increase^[k] ip).length = ip.length
      ∧ bigEndian (Increase^[k] ip) = (bigEndian ip + k) % 256 ^ ip.length
      ∧ Increase (List.replicate ip.length 0xff) = List.replicate ip.length 0 := by
  refine ⟨iterate_Increase_length k ip, bigEndian_iterate_Increase k ip, ?_⟩
  apply bigEndian_inj
  · rw [Increase_length, List.length_replicate, List.length_replicate]
  · rw [bigEndian_Increase, bigEndian_replicate_ff, List.length_replicate, Nat.mod_self,
      bigEndian_replicate_zero]

/-- C8, the carry across a byte boundary: 256 applications of `Increase` to
10.0.0.0 give 10.0.1.0. -/
theorem Increase_iterate_value_witness : Increase^[256] [10, 0, 0, 0] = [10, 0, 1, 0] := by
  apply bigEndian_inj
  · rw [(Increase_iterate_value [10, 0, 0, 0] 256).1]
    rfl
  · rw [(Increase_iterate_value [10, 0, 0, 0] 256).2.1]
    decide


/-- C4, evaluated on the network `::fffe:0:0/95` (a 16-byte address that is not
IPv4-mapped, with the 16-byte prefix mask of length 95): the scan of `GetList6`
stops at `::fffe:ffff:ffff`, the address before the IPv4-mapped block
`::ffff:0:0/96` (which `Contains` compares in 4-byte form and so rejects), while
`first OR (NOT mask)` is `::ffff:ffff:ffff`. -/
theorem GetList6_last_before_mapped_block :
    CIDRMask 95 128
        = some [255, 255, 255, 255, 255, 255, 255, 255, 255, 255, 255, 254, 0, 0, 0, 0]
      ∧ To4 [0, 0, 0, 0, 0, 0, 0, 0, 0, 0, 255, 254, 0, 0, 0, 0] = none
      ∧ GetList6 4294967296
          { IP := [0, 0, 0, 0, 0, 0, 0, 0, 0, 0, 255, 254, 0, 0, 0, 0]
            Mask := [255, 255, 255, 255, 255, 255, 255, 255, 255, 255, 255, 254, 0, 0, 0, 0] }
        = some
          { first := some [0, 0, 0, 0, 0, 0, 0, 0, 0, 0, 255, 254, 0, 0, 0, 0]
            last := some [0, 0, 0, 0, 0, 0, 0, 0, 0, 0, 255, 254, 255, 255, 255, 255]
            usable := some
              { ip := [0, 0, 0, 0, 0, 0, 0, 0, 0, 0, 255, 254, 0, 0, 0, 0]
                last := [0, 0, 0, 0, 0, 0, 0, 0, 0, 0, 255, 254, 255, 255, 255, 255] }
            err := none }
      ∧ orNotBytes [0, 0, 0, 0, 0, 0, 0, 0, 0, 0, 255, 254, 0, 0, 0, 0]
          [255, 255, 255, 255, 255, 255, 255, 255, 255, 255, 255, 254, 0, 0, 0, 0]
        = [0, 0, 0, 0, 0, 0, 0, 0, 0, 0, 255, 255, 255, 255, 255, 255] := by
  refine ⟨by decide, by decide, ?_, by decide⟩
  obtain ⟨n, hn⟩ : ∃ n : IPNet, n = IPNet.mk [0, 0, 0, 0, 0, 0, 0, 0, 0, 0, 255, 254, 0, 0, 0, 0]
      [255, 255, 255, 255, 255, 255, 255, 255, 255, 255, 255, 254, 0, 0, 0, 0] := ⟨_, rfl⟩
  rw [← hn]
  have hIP : n.IP = [0, 0, 0, 0, 0, 0, 0, 0, 0, 0, 255, 254, 0, 0, 0, 0] := by rw [hn]
  have hMask : n.Mask = [255, 255, 255, 255, 255, 255, 255, 255, 255, 255, 255, 254, 0, 0, 0, 0] := by
    rw [hn]
  have hmask : n.Mask = CIDRMaskLoop 16 95 := by rw [hMask]; decide
  have h4 : To4 n.IP = none := by rw [hIP]; decide
  have hl : n.IP.length = 16 := by rw [hIP]; rfl
  have hml : n.Mask.length = 16 := by rw [hMask]; rfl
  have hA : bigEndian n.IP = 281466386776064 := by rw [hIP]; decide
  have hfirst : andBytes n.IP n.Mask = n.IP := by rw [hIP, hMask]; decide
  have hres := GetList6_scan n 4294967295 4294967296 hl hml (by rw [hMask]; decide) (by omega)
    (by
      intro i hi1 hi2
      rw [Contains_iterate_v6 n 95 i h4 hl hmask (by omega), hA]
      norm_num
      omega)
    (by
      rw [Bool.eq_false_iff, ne_eq, Contains_iterate_v6 n 95 _ h4 hl hmask (by omega), hA]
      norm_num)
  have hlast : Increase^[4294967295] (andBytes n.IP n.Mask)
      = [0, 0, 0, 0, 0, 0, 0, 0, 0, 0, 255, 254, 255, 255, 255, 255] := by
    apply bigEndian_inj
    · rw [iterate_Increase_length, hfirst, hl]
      rfl
    · rw [bigEndian_iterate_Increase, hfirst, hA, hl]
      decide
  have h127 : n.Mask ≠ Mask127 := by rw [hMask]; decide
  rw [hres, hlast, hfirst, if_neg h127, hIP]

/-- The answers of `IsValid4` and `IsValid6` by the form of the address: for an
address given as a `net.IP` (or a pointer to one), or as
a text that `ParseIP` turns into the address `ip`: a 16-byte IPv4-mapped address
is reported by both `IsValid4` and `IsValid6`; a 16-byte address that is not
IPv4-mapped is reported by `IsValid6` and not by `IsValid4`; a 4-byte address is
reported by `IsValid4`; an address of any other length by neither. -/
theorem IsValid4_IsValid6_by_form (ParseIP : String → Option IP) (x : IPTypes) (ip : IP)
    (hx : x = .ip ip ∨ x = .ipPtr ip
      ∨ ∃ s, (x = .str s ∨ x = .strPtr s) ∧ ParseIP s = some ip) :
    (ip.length = 16 → ip.take 12 = v4InV6 →
        IsValid4 ParseIP x = true ∧ IsValid6 ParseIP x = true)
    ∧ (ip.length = 16 → ip.take 12 ≠ v4InV6 →
        IsValid4 ParseIP x = false ∧ IsValid6 ParseIP x = true)
    ∧ (ip.length = 4 → IsValid4 ParseIP x = true)
    ∧ (ip.length ≠ 4 → ip.length ≠ 16 →
        IsValid4 ParseIP x = false ∧ IsValid6 ParseIP x = false) := by
  have h4 : IsValid4 ParseIP x = (To4 ip).isSome := by
    rcases hx with rfl | rfl | ⟨s, rfl | rfl, hs⟩
    · rfl
    · rfl
    · simp only [IsValid4, hs]
    · simp only [IsValid4, hs]
  have h6 : IsValid6 ParseIP x = (To16 ip).isSome := by
    rcases hx with rfl | rfl | ⟨s, rfl | rfl, hs⟩
    · rfl
    · rfl
    · simp only [IsValid6, hs]
    · simp only [IsValid6, hs]
  rw [h4, h6]
  refine ⟨?_, ?_, ?_, ?_⟩
  · intro hl hm
    have hz := (mapped_iff ip hl).2 hm
    constructor
    · simp only [To4, IPv4len, IPv6len]
      rw [if_neg (by omega), if_pos ⟨hl, hz⟩]
      rfl
    · simp [To16, IPv4len, IPv6len, hl]
  · intro hl hm
    constructor
    · rw [(To4_eq_none_iff ip hl).2 hm]; rfl
    · simp [To16, IPv4len, IPv6len, hl]
  · intro hl
    rw [To4_of_length4 ip hl]; rfl
  · intro h4l h16l
    constructor
    · simp [To4, IPv4len, IPv6len, h4l, h16l]
    · simp [To16, IPv4len, IPv6len, h4l, h16l]

/-- C9, evaluated at IPv4 addresses: for every `a.b.c.d`, in the 4-byte form
`net.IP{a, b, c, d}` and in the 16-byte form of `net.IPv4`, `IsValid4` and
`IsValid6` are both true (`To16() != nil` holds for every address of 4 or 16
bytes); and for every input, text included and whatever `ParseIP` answers,
`IsValid6` is true whenever `IsValid4` is. -/
theorem IsValid6_true_on_IPv4 (ParseIP : String → Option IP) (a b c d : Byte) (x : IPTypes) :
    IsValid4 ParseIP (IPTypes.ip [a, b, c, d]) = true
      ∧ IsValid6 ParseIP (IPTypes.ip [a, b, c, d]) = true
      ∧ IsValid4 ParseIP (IPTypes.ip (IPv4 a b c d)) = true
      ∧ IsValid6 ParseIP (IPTypes.ip (IPv4 a b c d)) = true
      ∧ (!IsValid4 ParseIP x || IsValid6 ParseIP x) = true := by
  have himp : ∀ ip : IP, (To4 ip).isSome = true → (To16 ip).isSome = true := by
    intro ip h
    obtain ⟨v, hv⟩ := Option.isSome_iff_exists.1 h
    rcases To4_cases ip v hv with ⟨h4, _⟩ | ⟨h16, _⟩
    · exact (IsValid6IP_iff ip).2 (Or.inl h4)
    · exact (IsValid6IP_iff ip).2 (Or.inr h16)
  refine ⟨rfl, rfl, rfl, rfl, ?_⟩
  cases x with
  | ip v =>
    cases h : IsValid4 ParseIP (IPTypes.ip v)
    · rfl
    · simpa using himp v h
  | ipPtr v =>
    cases h : IsValid4 ParseIP (IPTypes.ipPtr v)
    · rfl
    · simpa using himp v h
  | str t =>
    simp only [IsValid4, IsValid6]
    cases hp : ParseIP t with
    | none => rfl
    | some i =>
      show (!(To4 i).isSome || (To16 i).isSome) = true
      cases h : (To4 i).isSome
      · rfl
      · rw [himp i h]
        rfl
  | strPtr t =>
    simp only [IsValid4, IsValid6]
    cases hp : ParseIP t with
    | none => rfl
    | some i =>
      show (!(To4 i).isSome || (To16 i).isSome) = true
      cases h : (To4 i).isSome
      · rfl
      · rw [himp i h]
        rfl
  | ipNet v => rfl
  | ipNetPtr v => rfl
  | ipAddr v => rfl
  | ipAddrPtr v => rfl
  | tcpAddr v => rfl
  | tcpAddrPtr v => rfl
  | udpAddr v => rfl
  | udpAddrPtr v => rfl

/-- C10, evaluated at 8.8.8.8 (4-byte form and 16-byte form): `IsReserved4` is
false and `IsReserved` is true, because `IsReserved6` is true: the entry
`::ffff:0:0/96` of `ReservedIPv6` has an IPv4-mapped address, which `Contains`
reads as the IPv4 network `0.0.0.0` with the mask `0.0.0.0`. -/
theorem IsReserved_of_public_IPv4 :
    IsReserved4 [8, 8, 8, 8] = false ∧ IsReserved6 [8, 8, 8, 8] = true
      ∧ IsReserved [8, 8, 8, 8] = true
      ∧ IsReserved4 (IPv4 8 8 8 8) = false ∧ IsReserved (IPv4 8 8 8 8) = true
      ∧ networkNumberAndMask
          { IP := [0, 0, 0, 0, 0, 0, 0, 0, 0, 0, 255, 255, 0, 0, 0, 0]
            Mask := [255, 255, 255, 255, 255, 255, 255, 255, 255, 255, 255, 255, 0, 0, 0, 0] }
        = ([0, 0, 0, 0], [0, 0, 0, 0]) := by
  decide


/-- C15: a raw `net.IP` is valid exactly when it is 4 or 16 bytes long; the
parsing function plays no part for this input type. -/
theorem IsValid_raw_iff_length (ParseIP : String → Option IP) (ip : IP) :
    IsValid ParseIP (IPTypes.ip ip) = true ↔ (ip.length = 4 ∨ ip.length = 16) := by
  simp only [IsValid, IsValid4, IsValid6, Bool.or_eq_true, IsValid6IP_iff]
  constructor
  · rintro (h | h)
    · obtain ⟨a, ha⟩ := (IsValid4IP_iff ip).1 h
      rcases To4_cases ip a ha with ⟨h4, _⟩ | ⟨h16, _⟩
      · exact Or.inl h4
      · exact Or.inr h16
    · exact h
  · intro h
    exact Or.inr h

/-- C15, at the empty (or `nil`) address and at a 5-byte sequence: not valid. -/
theorem IsValid_raw_iff_length_witness :
    IsValid (fun _ => none) (IPTypes.ip []) = false
      ∧ IsValid (fun _ => none) (IPTypes.ip [1, 2, 3, 4, 5]) = false
      ∧ IsValid (fun _ => none) (IPTypes.ip [1, 2, 3, 4]) = true := by
  refine ⟨?_, ?_, ?_⟩
  · rw [Bool.eq_false_iff, ne_eq, IsValid_raw_iff_length]; decide
  · rw [Bool.eq_false_iff, ne_eq, IsValid_raw_iff_length]; decide
  · rw [IsValid_raw_iff_length]; decide


/-- C13: for an IPv4 address (4-byte or IPv4-mapped, `a` its 4-byte form)
`IsReserved4` is true exactly when some entry of `ReservedIPv4`, with address
`A` (in 4-byte form) and mask `M`, satisfies `a AND M = A AND M`. -/
theorem IsReserved4_iff_entry (ip a : IP) (ha : To4 ip = some a) :
    IsReserved4 ip = true
      ↔ ∃ n ∈ ReservedIPv4, ∃ A, To4 n.IP = some A ∧ andBytes a n.Mask = andBytes A n.Mask := by
  have hal := To4_length _ _ ha
  simp only [IsReserved4, List.any_eq_true]
  constructor
  · rintro ⟨n, hn, hc⟩
    obtain ⟨hs, hml⟩ := ReservedIPv4_shape n hn
    obtain ⟨A, hA⟩ := Option.isSome_iff_exists.1 hs
    rw [Contains_To4 n ip a ha, Contains_v4 n A a hA hml hal] at hc
    exact ⟨n, hn, A, hA, hc.symm⟩
  · rintro ⟨n, hn, A, hA, he⟩
    obtain ⟨_, hml⟩ := ReservedIPv4_shape n hn
    refine ⟨n, hn, ?_⟩
    rw [Contains_To4 n ip a ha, Contains_v4 n A a hA hml hal]
    exact he.symm

/-- C13, at the addresses named in the claim: 10.0.0.1, 127.0.0.1, 192.168.1.1
and 255.255.255.255 are reserved and 8.8.8.8 is not, so no entry of
`ReservedIPv4` matches 8.8.8.8. -/
theorem IsReserved4_iff_entry_witness :
    IsReserved4 [10, 0, 0, 1] = true ∧ IsReserved4 [127, 0, 0, 1] = true
      ∧ IsReserved4 [192, 168, 1, 1] = true ∧ IsReserved4 [255, 255, 255, 255] = true
      ∧ IsReserved4 [8, 8, 8, 8] = false
      ∧ ¬ ∃ n ∈ ReservedIPv4, ∃ A, To4 n.IP = some A
          ∧ andBytes [8, 8, 8, 8] n.Mask = andBytes A n.Mask := by
  refine ⟨by decide, by decide, by decide, by decide, by decide, ?_⟩
  rw [← IsReserved4_iff_entry [8, 8, 8, 8] [8, 8, 8, 8] (by decide)]
  decide


/-- C11, evaluated with a random source that yields the bytes 8, 8, 8, 8 and the
coin 0: `GetPublic` returns `net.IPv4(8, 8, 8, 8)`, which `IsReserved4` does not
report and `IsReserved` reports as reserved. -/
theorem GetPublic_returns_reserved :
    GetPublic 0 1 (fun _ => 8) 0 = some (IPv4 8 8 8 8)
      ∧ IsReserved4 (IPv4 8 8 8 8) = false ∧ IsReserved (IPv4 8 8 8 8) = true := by
  decide

/-- C12, evaluated at the `net.IPNet` 8.8.8.8/32 and at the `net.TCPAddr`
`[::1]:80`: `ConvertToIP` yields the address, which is valid, while `IsValid4`,
`IsValid6` and `IsValid` take the `default` branch and answer `false`. -/
theorem IsValid_of_IPNet_false :
    ConvertToIP (fun _ => none) (IPTypes.ipNet { IP := [8, 8, 8, 8], Mask := Mask32 })
        = some [8, 8, 8, 8]
      ∧ IsValid4 (fun _ => none) (IPTypes.ip [8, 8, 8, 8]) = true
      ∧ IsValid4 (fun _ => none) (IPTypes.ipNet { IP := [8, 8, 8, 8], Mask := Mask32 }) = false
      ∧ IsValid (fun _ => none) (IPTypes.ipNet { IP := [8, 8, 8, 8], Mask := Mask32 }) = false
      ∧ IsValid6 (fun _ => none) (IPTypes.ip [0, 0, 0, 0, 0, 0, 0, 0, 0, 0, 0, 0, 0, 0, 0, 1]) = true
      ∧ IsValid6 (fun _ => none)
          (IPTypes.tcpAddr
            { IP := [0, 0, 0, 0, 0, 0, 0, 0, 0, 0, 0, 0, 0, 0, 0, 1], Port := 80, Zone := "" })
        = false := by
  refine ⟨rfl, by decide, rfl, rfl, by decide, rfl⟩

/-- C17, evaluated on the networks `a.b.c.d/0`: the mask of prefix length 0 is
`0.0.0.0`, every address is contained in the network, and `GetList4` does not
return, whatever the fuel. -/
theorem GetList4_zero_mask_never_returns (a b c d : Byte) (fuel : Nat) :
    CIDRMask 0 32 = some [0, 0, 0, 0]
      ∧ GetList4 fuel { IP := [a, b, c, d], Mask := [0, 0, 0, 0] } = none :=
  ⟨by decide, GetList4_zero_mask_none _ [a, b, c, d] fuel (To4_of_length4 _ rfl) rfl⟩


/-- C18, evaluated on the address 10.0.0.0 with the 4-byte mask 255.255.255.1:
the scan ends at once with `last = first = 10.0.0.0`; the channel then delivers
10.0.0.1 first, an address that is neither contained in the network nor between
`first` and `last`, and 4294967295 addresses in all. -/
theorem GetList4_usable_wraps_around :
    GetList4 1 { IP := [10, 0, 0, 0], Mask := [255, 255, 255, 1] } = some
        { first := some [10, 0, 0, 0]
          last := some [10, 0, 0, 0]
          usable := some { ip := [10, 0, 0, 0], last := [10, 0, 0, 0] }
          err := none }
      ∧ Chan.recv { ip := [10, 0, 0, 0], last := [10, 0, 0, 0] }
        = some ([10, 0, 0, 1], { ip := [10, 0, 0, 1], last := [10, 0, 0, 0] })
      ∧ Contains { IP := [10, 0, 0, 0], Mask := [255, 255, 255, 1] } [10, 0, 0, 1] = false
      ∧ ∃ us, Chan.drain 4294967296 { ip := [10, 0, 0, 0], last := [10, 0, 0, 0] } = some us
          ∧ us.length = 4294967295 := by
  refine ⟨by decide, by decide, by decide, ?_⟩
  obtain ⟨x, hx⟩ : ∃ x : IP, x = [10, 0, 0, 0] := ⟨_, rfl⟩
  have hlen : x.length = 4 := by rw [hx]; rfl
  have hval : bigEndian x = 167772160 := by rw [hx]; decide
  have e2 : (256 : Nat) ^ 4 = 4294967296 := by norm_num
  rw [← hx]
  refine ⟨_, drainAux_eq x 4294967295 4294967296 x [] (by omega) ?_ ?_, ?_⟩
  · intro i hi1 hi2
    rw [IPEqual_of_length_eq _ _ (iterate_Increase_length _ _)]
    apply decide_eq_false
    intro heq
    have := congrArg bigEndian heq
    rw [bigEndian_iterate_Increase, hval, hlen, e2] at this
    omega
  · rw [IPEqual_of_length_eq _ _ (iterate_Increase_length _ _)]
    apply decide_eq_true
    apply bigEndian_inj _ _ (iterate_Increase_length _ _)
    rw [bigEndian_iterate_Increase, hval, hlen, e2]
  · rw [List.reverse_nil, List.nil_append, List.length_map, List.length_range]

/-- C19, refuted at the line of `ReservedIPv4` commented `192.168.0.0/24`: the
entry has the mask 255.255.0.0, which is not the prefix mask of length 24, and
it contains 192.168.1.0, an address outside 192.168.0.0 - 192.168.0.255. -/
theorem ReservedIPv4_entry_192_168_not_24 :
    ReservedIPv4Doc.getD 9 ((0, 0, 0, 0), 0) = ((192, 168, 0, 0), 24)
      ∧ ReservedIPv4.getD 9 { IP := [], Mask := [] }
        = { IP := IPv4 192 168 0 0, Mask := IPv4Mask 255 255 0 0 }
      ∧ denotes { IP := IPv4 192 168 0 0, Mask := IPv4Mask 255 255 0 0 } (IPv4 192 168 0 0) 24 32
        = false
      ∧ ReservedIPv4Rows.all (fun b => b) = false
      ∧ Contains { IP := IPv4 192 168 0 0, Mask := IPv4Mask 255 255 0 0 } [192, 168, 1, 0]
        = true := by
  decide

/-- C19, amended: every entry of `ReservedIPv4` and of `ReservedIPv6` is the
block named in the comment of its line (address and prefix mask), except the
line of `ReservedIPv4` commented `192.168.0.0/24`, whose entry is the block
192.168.0.0/16, with the mask 255.255.0.0. -/
theorem Reserved_tables_match_comments :
    ReservedIPv4.length = ReservedIPv4Doc.length
      ∧ ReservedIPv4Rows
        = [true, true, true, true, true, true, true, true, true, false, true, true, true, true,
            true, true, true]
      ∧ denotes (ReservedIPv4.getD 9 { IP := [], Mask := [] }) (IPv4 192 168 0 0) 16 32 = true
      ∧ ReservedIPv6.length = ReservedIPv6Doc.length
      ∧ ReservedIPv6Rows.all (fun b => b) = true := by
  decide


/-- C20: on a valid IPv4 network with a 4-byte mask that is neither all-zero nor
`/32`, contiguous or not, `GetList4` returns (once the fuel covers the `2 ^ t`
steps of the scan) `last = first + 2 ^ t - 1`, `t` the number of trailing zero
bits of the mask; and `last = first OR (NOT mask)` holds exactly when the mask
is a prefix mask (of a length from 1 to 31). -/
theorem GetList4_last_trailing_zeros (n : IPNet) (fuel : Nat)
    (hv : IsValid4IP n.IP = true) (hml : n.Mask.length = 4) (hzero : n.Mask ≠ [0, 0, 0, 0])
    (h32 : n.Mask ≠ Mask32) (hf : 2 ^ trailingZeros (bigEndian n.Mask) ≤ fuel) :
    ∃ a first last usable, To4 n.IP = some a ∧ first = andBytes a n.Mask
      ∧ GetList4 fuel n
          = some { first := some first, last := some last, usable := usable, err := none }
      ∧ bigEndian last = bigEndian first + (2 ^ trailingZeros (bigEndian n.Mask) - 1)
      ∧ (last = orNotBytes first n.Mask
          ↔ ∃ p, 1 ≤ p ∧ p ≤ 31 ∧ CIDRMask p 32 = some n.Mask) := by
  obtain ⟨a, ha⟩ := (IsValid4IP_iff _).1 hv
  have hal := To4_length _ _ ha
  have hfl : (andBytes a n.Mask).length = 4 := by
    rw [andBytes_length _ _ (by rw [hal, hml]), hal]
  have e2 : (256 : Nat) ^ 4 = 2 ^ 32 := by norm_num
  have h0 : bigEndian n.Mask ≠ 0 := by
    intro h
    exact hzero (bigEndian_inj _ _ (by rw [hml]; rfl) (by rw [h]; rfl))
  have hM := bigEndian_lt n.Mask
  rw [hml, e2] at hM
  obtain ⟨hres, hsteps⟩ := GetList4_anymask n a fuel ha hml h0 h32 hf
  obtain ⟨q, f, ht, hodd, hMq, _, _, _⟩ := mask_decomp a n.Mask hal hml h0
  obtain ⟨t, htdef⟩ : ∃ t, t = trailingZeros (bigEndian n.Mask) := ⟨_, rfl⟩
  rw [← htdef] at hres hsteps ht hMq ⊢
  have hpos : 0 < 2 ^ t := Nat.pos_of_ne_zero (by positivity)
  have hlast := (hsteps (2 ^ t - 1) (by omega)).1
  have hor : bigEndian (orNotBytes (andBytes a n.Mask) n.Mask)
      = bigEndian (andBytes a n.Mask) + (2 ^ 32 - 1 - bigEndian n.Mask) := by
    rw [bigEndian_orNotBytes _ _ (by rw [hfl, hml]), hml, e2,
      bigEndian_andBytes _ _ (by rw [hal, hml])]
    exact and_or_compl_eq_add 32 _ _ hM
  refine ⟨a, _, _, _, ha, rfl, hres, hlast, ?_⟩
  have hiff : Increase^[2 ^ t - 1] (andBytes a n.Mask) = orNotBytes (andBytes a n.Mask) n.Mask
      ↔ bigEndian n.Mask + 2 ^ t = 2 ^ 32 := by
    constructor
    · intro h
      have := congrArg bigEndian h
      rw [hlast, hor] at this
      omega
    · intro h
      apply bigEndian_inj
      · rw [iterate_Increase_length, orNotBytes_length _ _ (by rw [hfl, hml])]
      · rw [hlast, hor]
        omega
  rw [hiff]
  constructor
  · intro h
    have ht1 : 1 ≤ t := by
      by_contra hlt
      have ht0 : t = 0 := by omega
      rw [ht0] at h
      apply h32
      apply bigEndian_inj _ _ (by rw [hml]; rfl)
      rw [bigEndian_Mask32]
      omega
    refine ⟨32 - t, by omega, by omega, ?_⟩
    have hc : CIDRMask (32 - t) 32 = some (CIDRMaskLoop 4 (32 - t)) := by
      simp [CIDRMask, IPv4len, IPv6len]
    rw [hc]
    congr 1
    apply bigEndian_inj _ _ (by rw [CIDRMaskLoop_length, hml])
    rw [bigEndian_CIDRMaskLoop 4 (32 - t) (by omega)]
    have e : 8 * 4 - (32 - t) = t := by omega
    rw [e]
    omega
  · rintro ⟨p, hp1, hp31, hc⟩
    obtain ⟨hmask, _⟩ := CIDRMask_32 p n.Mask hc
    have hMp : bigEndian n.Mask = 2 ^ (32 - p) * (2 ^ p - 1) := by
      rw [hmask, bigEndian_CIDRMaskLoop 4 p (by omega), Nat.mul_sub, Nat.mul_one, ← pow_add]
      have e : 8 * 4 - p = 32 - p := by omega
      have e3 : 32 - p + p = 8 * 4 := by omega
      rw [e, e3]
    have hoddp : (2 ^ p - 1) % 2 = 1 := by
      obtain ⟨k, rfl⟩ : ∃ k, p = k + 1 := ⟨p - 1, by omega⟩
      have hk : 0 < 2 ^ k := Nat.pos_of_ne_zero (by positivity)
      rw [pow_succ]
      omega
    have ht2 : t = 32 - p := by
      rw [htdef, hMp]
      exact trailingZerosAux_eq (32 - p) 32 _ (by omega) hoddp
    rw [ht2, hMp, ← Nat.mul_add_one, Nat.sub_add_cancel (Nat.pos_of_ne_zero (by positivity)),
      ← pow_add]
    congr 1
    omega

/-- C20, at the address 10.0.0.0 with the mask 255.0.255.0, which has 8 trailing
zero bits and is not a prefix mask: `last` is 255 steps after `first` and is not
`first OR (NOT mask)`. -/
theorem GetList4_last_trailing_zeros_witness :
    trailingZeros (bigEndian [255, 0, 255, 0]) = 8
      ∧ ∃ a first last usable, To4 [10, 0, 0, 0] = some a ∧ first = andBytes a [255, 0, 255, 0]
        ∧ GetList4 256 { IP := [10, 0, 0, 0], Mask := [255, 0, 255, 0] }
            = some { first := some first, last := some last, usable := usable, err := none }
        ∧ bigEndian last = bigEndian first + (2 ^ trailingZeros (bigEndian [255, 0, 255, 0]) - 1)
        ∧ (last = orNotBytes first [255, 0, 255, 0]
            ↔ ∃ p, 1 ≤ p ∧ p ≤ 31 ∧ CIDRMask p 32 = some [255, 0, 255, 0]) :=
  ⟨by decide,
    GetList4_last_trailing_zeros { IP := [10, 0, 0, 0], Mask := [255, 0, 255, 0] } 256
      (by decide) rfl (by decide) (by decide) (by decide)⟩

end GoIP
